import Mathlib

/-!
Verification of the bencode codec and torrent-metadata model
(src/src/bencode_decoder.rs and src/src/main.rs).

Shallow embedding conventions:
* byte buffers (Rust Vec<u8>) are List Nat with entries < 256 at use sites;
* Rust String values are represented by their UTF-8 byte lists;
* every Rust panic (explicit panic!, Option::unwrap on None, out-of-bounds
  slicing) is modelled as the Option value none;
* IndexMap is an ordered association list with insert-replacing semantics.
-/

/-- Fuelled digit loop for natDigits; the fuel only serves the termination
checker, n + 1 steps always suffice since n / 10 strictly decreases. -/
def natDigitsAux : Nat → Nat → List Nat
  | 0, _ => []
  | Nat.succ f, n =>
    if n < 10 then [48 + n]
    else natDigitsAux f (n / 10) ++ [48 + n % 10]

/-- Decimal digits (ASCII) of a natural number, as produced by Rust
to_string/format on unsigned integers. -/
def natDigits (n : Nat) : List Nat := natDigitsAux (n + 1) n

/-- Decimal bytes of a signed integer, as produced by Rust format on i64. -/
def intDecimal (i : Int) : List Nat :=
  if i < 0 then 45 :: natDigits i.natAbs else natDigits i.toNat

/-- Accumulator loop shared by the integer parsers: consumes decimal digits,
failing on the first non-digit byte. -/
def digitsAcc (acc : Nat) : List Nat → Option Nat
  | [] => some acc
  | c :: t => if 48 ≤ c ∧ c ≤ 57 then digitsAcc (acc * 10 + (c - 48)) t else none

/-- Rust str::parse::<usize> on a byte list: an optional leading plus sign,
then at least one decimal digit, rejecting values outside u64 range. -/
def parseUsize (l : List Nat) : Option Nat :=
  let l' := match l with | 43 :: t => t | _ => l
  match l' with
  | [] => none
  | _ =>
    match digitsAcc 0 l' with
    | some v => if v < 2 ^ 64 then some v else none
    | none => none

/-- Rust str::parse::<i64> on a byte list: an optional sign, then at least one
decimal digit, rejecting values outside i64 range. -/
def parseI64 (l : List Nat) : Option Int :=
  match l with
  | 45 :: t =>
    match t, digitsAcc 0 t with
    | _ :: _, some v => if v ≤ 2 ^ 63 then some (-(v : Int)) else none
    | _, _ => none
  | 43 :: t =>
    match t, digitsAcc 0 t with
    | _ :: _, some v => if v < 2 ^ 63 then some (v : Int) else none
    | _, _ => none
  | _ =>
    match l, digitsAcc 0 l with
    | _ :: _, some v => if v < 2 ^ 63 then some (v : Int) else none
    | _, _ => none

/-- UTF-8 continuation byte (0x80..=0xBF). -/
def utf8Cont (b : Nat) : Bool := 128 ≤ b && b ≤ 191

/-- Lower bound for the first continuation byte, which is constrained by the
lead byte (0xE0 and 0xF0 exclude overlong encodings). -/
def utf8Cont1Lo (b : Nat) : Nat := if b = 224 then 160 else if b = 240 then 144 else 128

/-- Upper bound for the first continuation byte (0xED excludes surrogates,
0xF4 caps the code space at U+10FFFF). -/
def utf8Cont1Hi (b : Nat) : Nat := if b = 237 then 159 else if b = 244 then 143 else 191

/-- First continuation byte check relative to lead byte b. -/
def utf8Cont1 (b c : Nat) : Bool := utf8Cont1Lo b ≤ c && c ≤ utf8Cont1Hi b

/-- Length (1 to 4) of the well-formed UTF-8 sequence at the front of the
list, or none when the front is not a well-formed sequence (bad lead byte,
continuation out of its allowed range, or truncation). -/
def utf8SeqLen : List Nat → Option Nat
  | [] => none
  | b :: t =>
    if b ≤ 127 then some 1
    else if 194 ≤ b ∧ b ≤ 223 then
      match t with
      | c1 :: _ => if utf8Cont c1 then some 2 else none
      | [] => none
    else if 224 ≤ b ∧ b ≤ 239 then
      match t with
      | c1 :: c2 :: _ => if utf8Cont1 b c1 ∧ utf8Cont c2 then some 3 else none
      | _ => none
    else if 240 ≤ b ∧ b ≤ 244 then
      match t with
      | c1 :: c2 :: c3 :: _ =>
        if utf8Cont1 b c1 ∧ utf8Cont c2 ∧ utf8Cont c3 then some 4 else none
      | _ => none
    else none

/-- Rust std UTF-8 validity worker; every step consumes at least one byte so
fuel equal to the input length always suffices. -/
def validUtf8Aux : Nat → List Nat → Bool
  | _, [] => true
  | 0, _ => false
  | Nat.succ f, l =>
    match utf8SeqLen l with
    | some n => validUtf8Aux f (l.drop n)
    | none => false

/-- Rust std UTF-8 validity of a byte list (String::from_utf8 succeeds). -/
def validUtf8 (l : List Nat) : Bool := validUtf8Aux l.length l

/-- Number of bytes one U+FFFD replacement covers when the front of the list
is not a well-formed sequence: the maximal prefix that could still start a
well-formed sequence (lead byte plus the valid constrained continuations seen
before the offending or missing byte), at least 1. Matches Rust's
substitution-of-maximal-subparts policy in String::from_utf8_lossy. -/
def utf8FailLen : List Nat → Nat
  | [] => 1
  | b :: t =>
    if b ≤ 127 then 1
    else if 194 ≤ b ∧ b ≤ 223 then 1
    else if 224 ≤ b ∧ b ≤ 239 then
      match t with
      | c1 :: _ => if utf8Cont1 b c1 then 2 else 1
      | [] => 1
    else if 240 ≤ b ∧ b ≤ 244 then
      match t with
      | c1 :: c2 :: _ => if utf8Cont1 b c1 then (if utf8Cont c2 then 3 else 2) else 1
      | [c1] => if utf8Cont1 b c1 then 2 else 1
      | [] => 1
    else 1

/-- Fuelled worker for fromUtf8Lossy; every step consumes at least one byte so
fuel equal to the input length always suffices. -/
def lossyAux : Nat → List Nat → List Nat
  | _, [] => []
  | 0, _ => []
  | Nat.succ f, l =>
    match utf8SeqLen l with
    | some n => l.take n ++ lossyAux f (l.drop n)
    | none => 239 :: 191 :: 189 :: lossyAux f (l.drop (utf8FailLen l))

/-- Rust String::from_utf8_lossy on a byte list, returning the UTF-8 bytes of
the resulting string: each maximal invalid subpart is replaced by U+FFFD
(bytes 0xEF 0xBF 0xBD), per the substitution-of-maximal-subparts policy. -/
def fromUtf8Lossy (l : List Nat) : List Nat := lossyAux l.length l

/-- Bytes of the first char of a valid UTF-8 byte list (str::chars().next()),
none on an empty list. -/
def utf8First (l : List Nat) : Option (List Nat) :=
  match utf8SeqLen l with
  | some n => some (l.take n)
  | none => none

/-- Model of the Bencode enum of src/src/bencode_decoder.rs. The source keeps
decoded dictionary keys as Rust String; here a key is its UTF-8 byte list and
the decoder enforces validity exactly where String::from_utf8 is unwrapped. -/
inductive Bencode where
  | String (s : List Nat)
  | Integer (i : Int)
  | List (l : List Bencode)
  | Dictionary (d : List (List Nat × Bencode))

mutual
def beqB : Bencode → Bencode → Bool
  | .String a, .String b => a = b
  | .Integer a, .Integer b => a = b
  | .List a, .List b => beqBList a b
  | .Dictionary a, .Dictionary b => beqBDict a b
  | _, _ => false
def beqBList : List Bencode → List Bencode → Bool
  | [], [] => true
  | a :: as, b :: bs => beqB a b && beqBList as bs
  | _, _ => false
def beqBDict : List (List Nat × Bencode) → List (List Nat × Bencode) → Bool
  | [], [] => true
  | (k, a) :: as, (k', b) :: bs => k = k' && beqB a b && beqBDict as bs
  | _, _ => false
end

mutual
theorem beqB_iff : ∀ a b : Bencode, beqB a b = true ↔ a = b
  | .String a, b => by cases b <;> simp [beqB]
  | .Integer a, b => by cases b <;> simp [beqB]
  | .List a, b => by cases b <;> simp [beqB, beqBList_iff a]
  | .Dictionary a, b => by cases b <;> simp [beqB, beqBDict_iff a]
theorem beqBList_iff : ∀ a b : List Bencode, beqBList a b = true ↔ a = b
  | [], b => by cases b <;> simp [beqBList]
  | a :: as, b => by
    cases b with
    | nil => simp [beqBList]
    | cons b bs => simp [beqBList, beqB_iff a b, beqBList_iff as bs]
theorem beqBDict_iff : ∀ a b : List (List Nat × Bencode), beqBDict a b = true ↔ a = b
  | [], b => by cases b <;> simp [beqBDict]
  | (k, a) :: as, b => by
    cases b with
    | nil => simp [beqBDict]
    | cons kb bs =>
      obtain ⟨k', b⟩ := kb
      simp [beqBDict, beqB_iff a b, beqBDict_iff as bs, and_assoc]
end

instance : DecidableEq Bencode := fun a b =>
  decidable_of_iff (beqB a b = true) (beqB_iff a b)

/-- IndexMap::get on the ordered association list. -/
def idxLookup (d : List (List Nat × Bencode)) (k : List Nat) : Option Bencode :=
  match d with
  | [] => none
  | (k', v) :: t => if k' = k then some v else idxLookup t k

/-- IndexMap::insert on the ordered association list: an existing key keeps its
position and gets the new value, a fresh key is appended. -/
def idxInsert (d : List (List Nat × Bencode)) (k : List Nat) (v : Bencode) :
    List (List Nat × Bencode) :=
  match d with
  | [] => [(k, v)]
  | (k', v') :: t => if k' = k then (k', v) :: t else (k', v') :: idxInsert t k v

mutual
/-- Bencode::encode_value. The source takes &mut self and drains byte-string
payloads via Vec::append, so the model returns the output bytes together with
the mutated value. Dictionary keys are encoded through a cloned temporary and
therefore survive. -/
def encode_value : Bencode → List Nat × Bencode
  | .String s => (natDigits s.length ++ 58 :: s, .String [])
  | .Integer i => (105 :: (intDecimal i ++ [101]), .Integer i)
  | .List l =>
    let p := encodeListM l
    (108 :: (p.1 ++ [101]), .List p.2)
  | .Dictionary d =>
    let p := encodeDictM d
    (100 :: (p.1 ++ [101]), .Dictionary p.2)
def encodeListM : List Bencode → List Nat × List Bencode
  | [] => ([], [])
  | v :: t =>
    let p := encode_value v
    let q := encodeListM t
    (p.1 ++ q.1, p.2 :: q.2)
def encodeDictM : List (List Nat × Bencode) → List Nat × List (List Nat × Bencode)
  | [] => ([], [])
  | (k, v) :: t =>
    let p := encode_value v
    let q := encodeDictM t
    ((natDigits k.length ++ 58 :: k) ++ (p.1 ++ q.1), (k, p.2) :: q.2)
end

/-- Output bytes of one call to encode_value. -/
def encB (v : Bencode) : List Nat := (encode_value v).1

mutual
/-- State of a Bencode value after encode_value returns: every byte-string
payload outside dictionary keys has been drained to empty. -/
def drain : Bencode → Bencode
  | .String _ => .String []
  | .Integer i => .Integer i
  | .List l => .List (drainList l)
  | .Dictionary d => .Dictionary (drainDict d)
def drainList : List Bencode → List Bencode
  | [] => []
  | v :: t => drain v :: drainList t
def drainDict : List (List Nat × Bencode) → List (List Nat × Bencode)
  | [] => []
  | (k, v) :: t => (k, drain v) :: drainDict t
end

/-- String branch of Bencode::decode_value (first byte an ASCII digit): split
at the first colon, parse the length, slice the payload. Out-of-range slicing
and parse failures panic in the source and are none here. -/
def decodeStr (input : List Nat) : Option (Bencode × List Nat) :=
  match input.findIdx? (fun c => c = 58) with
  | some idx =>
    let lenBytes := input.take idx
    let rest := input.drop idx
    if validUtf8 lenBytes then
      match parseUsize lenBytes with
      | some len =>
        if len + 1 ≤ rest.length then
          some (.String ((rest.drop 1).take len), rest.drop (len + 1))
        else none
      | none => none
    else none
  | none => none

/-- Integer branch of Bencode::decode_value: split the tail at the first e,
reject a leading zero unless the digits are exactly 0, reject -0, then parse
as i64. A missing e or parse failure panics in the source and is none here. -/
def decodeInt (input : List Nat) : Option (Bencode × List Nat) :=
  let t := input.drop 1
  match t.findIdx? (fun c => c = 101) with
  | none => none
  | some idx =>
    let numBytes := t.take idx
    let rest := t.drop (idx + 1)
    match numBytes with
    | [] => none
    | h :: hs =>
      if h = 48 ∧ hs ≠ [] then none
      else if numBytes = [45, 48] then none
      else if validUtf8 numBytes then
        match parseI64 numBytes with
        | some n => some (.Integer n, rest)
        | none => none
      else none

mutual
/-- Bencode::decode_value with explicit fuel (the Rust recursion always
terminates because each step consumes input; fuel only serves Lean's
termination checker and 2*length+2 always suffices). Every panic of the
source, including unwrap on None and out-of-bounds slicing, is none. -/
def decodeF : Nat → List Nat → Option (Bencode × List Nat)
  | 0, _ => none
  | Nat.succ f, input =>
    match input with
    | [] => none
    | b :: _ =>
      if 48 ≤ b ∧ b ≤ 57 then decodeStr input
      else if b = 105 then decodeInt input
      else if b = 108 then decodeListF f [] (input.drop 1)
      else if b = 100 then decodeDictF f [] (input.drop 1)
      else none
/-- List branch loop: decode one term, push it, then look at the first byte of
the remainder; e closes the list, an empty remainder panics (none). -/
def decodeListF : Nat → List Bencode → List Nat → Option (Bencode × List Nat)
  | 0, _, _ => none
  | Nat.succ f, acc, input =>
    match decodeF f input with
    | some (v, rest) =>
      match rest with
      | [] => none
      | c :: r =>
        if c = 101 then some (.List (acc ++ [v]), r)
        else decodeListF f (acc ++ [v]) rest
    | none => none
/-- Dictionary branch loop: decode a term that must be a byte-string key (the
while-let falls through to a panic otherwise), decode the value, insert with
IndexMap semantics after the String::from_utf8(key).unwrap() validity check,
then inspect the first remainder byte as for lists. -/
def decodeDictF : Nat → List (List Nat × Bencode) → List Nat → Option (Bencode × List Nat)
  | 0, _, _ => none
  | Nat.succ f, acc, input =>
    match decodeF f input with
    | some (.String keyBytes, rest) =>
      match decodeF f rest with
      | some (v, rest2) =>
        if validUtf8 keyBytes then
          match rest2 with
          | [] => none
          | c :: r =>
            if c = 101 then some (.Dictionary (idxInsert acc keyBytes v), r)
            else decodeDictF f (idxInsert acc keyBytes v) rest2
        else none
      | none => none
    | some _ => none
    | none => none
end

/-- Bencode::decode_value of src/src/bencode_decoder.rs, with fuel large
enough for any input. -/
def decode_value (input : List Nat) : Option (Bencode × List Nat) :=
  decodeF (2 * input.length + 2) input

mutual
/-- Every dictionary key reachable inside a Bencode value is valid UTF-8; this
is the invariant the decoder maintains because decoded keys pass through
String::from_utf8(...).unwrap(). -/
def keysValid : Bencode → Bool
  | .String _ => true
  | .Integer _ => true
  | .List l => keysValidList l
  | .Dictionary d => keysValidDict d
def keysValidList : List Bencode → Bool
  | [] => true
  | v :: t => keysValid v && keysValidList t
def keysValidDict : List (List Nat × Bencode) → Bool
  | [] => true
  | (k, v) :: t => validUtf8 k && keysValid v && keysValidDict t
end

/-- Boolean membership of a byte list in a list of byte lists (used for key
sets). -/
def memB (x : List Nat) : List (List Nat) → Bool
  | [] => false
  | y :: t => x = y || memB x t

/-- No duplicate byte lists. -/
def nodupB : List (List Nat) → Bool
  | [] => true
  | x :: t => !(memB x t) && nodupB t

mutual
/-- Values constructible by the Rust program whose encodings decode back:
byte-string lengths fit usize, integers fit i64, lists and dictionaries are
nonempty (the decoder crashes on the empty encodings le and de), and
dictionary keys are valid UTF-8, fit usize, and are duplicate-free (an
IndexMap cannot hold duplicates). -/
def wfBencode : Bencode → Bool
  | .String s => decide (s.length < 2 ^ 64)
  | .Integer i => decide (-(2 ^ 63) ≤ i) && decide (i < 2 ^ 63)
  | .List l => decide (l ≠ []) && wfBencodeList l
  | .Dictionary d => decide (d ≠ []) && nodupB (d.map Prod.fst) && wfBencodeDict d
def wfBencodeList : List Bencode → Bool
  | [] => true
  | v :: t => wfBencode v && wfBencodeList t
def wfBencodeDict : List (List Nat × Bencode) → Bool
  | [] => true
  | (k, v) :: t =>
    validUtf8 k && decide (k.length < 2 ^ 64) && wfBencode v && wfBencodeDict t
end

/-! Byte-list constants for the ASCII dictionary keys matched in src/src/main.rs. -/

/-- Bytes of "announce". -/
def kAnnounce : List Nat := [97, 110, 110, 111, 117, 110, 99, 101]
/-- Bytes of "info". -/
def kInfo : List Nat := [105, 110, 102, 111]
/-- Bytes of "piece layers". -/
def kPieceLayers : List Nat := [112, 105, 101, 99, 101, 32, 108, 97, 121, 101, 114, 115]
/-- Bytes of "name". -/
def kName : List Nat := [110, 97, 109, 101]
/-- Bytes of "piece length". -/
def kPieceLength : List Nat := [112, 105, 101, 99, 101, 32, 108, 101, 110, 103, 116, 104]
/-- Bytes of "meta version". -/
def kMetaVersion : List Nat := [109, 101, 116, 97, 32, 118, 101, 114, 115, 105, 111, 110]
/-- Bytes of "file tree". -/
def kFileTree : List Nat := [102, 105, 108, 101, 32, 116, 114, 101, 101]
/-- Bytes of "pieces". -/
def kPieces : List Nat := [112, 105, 101, 99, 101, 115]
/-- Bytes of "private". -/
def kPrivate : List Nat := [112, 114, 105, 118, 97, 116, 101]
/-- Bytes of "length". -/
def kLength : List Nat := [108, 101, 110, 103, 116, 104]
/-- Bytes of "md5sum". -/
def kMd5sum : List Nat := [109, 100, 53, 115, 117, 109]
/-- Bytes of "files". -/
def kFiles : List Nat := [102, 105, 108, 101, 115]
/-- Bytes of "attr". -/
def kAttr : List Nat := [97, 116, 116, 114]
/-- Bytes of "path". -/
def kPath : List Nat := [112, 97, 116, 104]
/-- Bytes of "pieces root". -/
def kPiecesRoot : List Nat := [112, 105, 101, 99, 101, 115, 32, 114, 111, 111, 116]

/-- Rust cast i64 as u32: keep the low 32 bits (two's complement wrapping). -/
def i64AsU32 (i : Int) : Nat := (i % (2 ^ 32 : Int)).toNat

/-- Rust cast i64 as u8: keep the low 8 bits. -/
def i64AsU8 (i : Int) : Nat := (i % (2 ^ 8 : Int)).toNat

/-- Fuelled worker for chunks20; each step consumes 20 bytes, so fuel equal to
the input length always suffices. -/
def chunksAux : Nat → List Nat → List (List Nat)
  | _, [] => []
  | 0, _ => []
  | Nat.succ f, l => l.take 20 :: chunksAux f (l.drop 20)

/-- Rust slice::chunks(20) collected into vectors: consecutive 20-byte chunks,
the final chunk possibly shorter. -/
def chunks20 (l : List Nat) : List (List Nat) := chunksAux l.length l

/-- Rust str::split for the slash character, on the UTF-8 bytes (a slash byte
can never occur inside a multi-byte sequence, so byte-level splitting agrees
with char-level splitting on valid strings). -/
def splitOnSlash : List Nat → List (List Nat)
  | [] => [[]]
  | b :: t =>
    if b = 47 then [] :: splitOnSlash t
    else
      match splitOnSlash t with
      | h :: r => (b :: h) :: r
      | [] => [[b]]

/-- Vec<String>::join with a slash separator, on UTF-8 bytes. -/
def joinSlash : List (List Nat) → List Nat
  | [] => []
  | [x] => x
  | x :: xs => x ++ 47 :: joinSlash xs

/-- The File struct of src/src/main.rs: one leaf of a v2 file tree. -/
structure File where
  length : Nat
  pieces_root : Option (List Nat)
  deriving DecidableEq

/-- The FileTree enum of src/src/main.rs. -/
inductive FileTree where
  | File (name : List Nat) (file : File)
  | Directory (name : List Nat) (contents : List FileTree)

mutual
def beqFT : FileTree → FileTree → Bool
  | .File n a, .File n' b => n = n' && a = b
  | .Directory n a, .Directory n' b => n = n' && beqFTList a b
  | _, _ => false
def beqFTList : List FileTree → List FileTree → Bool
  | [], [] => true
  | a :: as, b :: bs => beqFT a b && beqFTList as bs
  | _, _ => false
end

mutual
theorem beqFT_iff : ∀ a b : FileTree, beqFT a b = true ↔ a = b
  | .File n a, b => by cases b <;> simp [beqFT]
  | .Directory n a, b => by cases b <;> simp [beqFT, beqFTList_iff a]
theorem beqFTList_iff : ∀ a b : List FileTree, beqFTList a b = true ↔ a = b
  | [], b => by cases b <;> simp [beqFTList]
  | a :: as, b => by
    cases b with
    | nil => simp [beqFTList]
    | cons b bs => simp [beqFTList, beqFT_iff a b, beqFTList_iff as bs]
end

instance : DecidableEq FileTree := fun a b =>
  decidable_of_iff (beqFT a b = true) (beqFT_iff a b)

/-- The FileV1 struct of src/src/main.rs (legacy multi-file entry); path holds
the bytes of the PathBuf's string, attr the UTF-8 bytes of the char. -/
structure FileV1 where
  length : Nat
  md5sum : Option (List Nat)
  path : List Nat
  attr : Option (List Nat)
  deriving DecidableEq

/-- The FileModeV1 enum of src/src/main.rs. -/
inductive FileModeV1 where
  | Single (length : Nat) (md5sum : Option (List Nat))
  | Multiple (files : List FileV1)
  deriving DecidableEq

/-- The Info struct of src/src/main.rs; the Rust field named private is called
priv here because that word is a Lean keyword. -/
structure Info where
  name : List Nat
  piece_length : Nat
  meta_version : Nat
  file_tree : FileTree
  pieces : Option (List (List Nat))
  priv : Option Bool
  file_mode : Option FileModeV1
  deriving DecidableEq

/-- The Default impl for Info. -/
def defaultInfo : Info :=
  ⟨[], 0, 0, .Directory [] [], none, none, none⟩

mutual
/-- FileTree::parse of src/src/main.rs: classify each dictionary entry as a
File (its value dictionary has an empty-string key mapping to a descriptor
dictionary) or a Directory (recurse); panics are none. -/
def FileTree.parse : Bencode → Option (List FileTree)
  | .Dictionary d => ftEntries d
  | _ => none
/-- Entry loop of FileTree::parse. -/
def ftEntries : List (List Nat × Bencode) → Option (List FileTree)
  | [] => some []
  | (k, v) :: t =>
    if validUtf8 k then
      match v with
      | .Dictionary child =>
        match idxLookup child [] with
        | some (.Dictionary file_dict) =>
          match idxLookup file_dict kLength with
          | some (.Integer n) =>
            let pr : Option (List Nat) :=
              match idxLookup file_dict kPiecesRoot with
              | some (.String prb) => some prb
              | _ => none
            match ftEntries t with
            | some rest => some (.File k ⟨i64AsU32 n, pr⟩ :: rest)
            | none => none
          | _ => none
        | _ =>
          match FileTree.parse v with
          | some c =>
            match ftEntries t with
            | some rest => some (.Directory k c :: rest)
            | none => none
          | none => none
      | _ => none
    else none
end

/-- Sequential IndexMap::insert of a list of pairs into an accumulated map,
matching the insertion loop of FileTree::to_bencode. -/
def idxInsertMany (acc : List (List Nat × Bencode)) :
    List (List Nat × Bencode) → List (List Nat × Bencode)
  | [] => acc
  | (k, v) :: t => idxInsertMany (idxInsert acc k v) t

/-- Inner descriptor dictionary of a file leaf in FileTree::to_bencode:
length, then pieces root when present. -/
def fileInner (f : File) : List (List Nat × Bencode) :=
  match f.pieces_root with
  | some pr =>
    idxInsert (idxInsert [] kLength (.Integer (f.length : Int))) kPiecesRoot (.String pr)
  | none => idxInsert [] kLength (.Integer (f.length : Int))

mutual
/-- One dictionary entry per child in FileTree::to_bencode: a File maps to its
two-level descriptor dictionary, a Directory maps to its recursively built
dictionary. -/
def childEntry : FileTree → List Nat × Bencode
  | .File n f => (n, .Dictionary (idxInsert [] [] (.Dictionary (fileInner f))))
  | .Directory n c => (n, .Dictionary (idxInsertMany [] (childEntriesList c)))
def childEntriesList : List FileTree → List (List Nat × Bencode)
  | [] => []
  | ft :: t => childEntry ft :: childEntriesList t
end

/-- Dictionary built by the insertion loop of FileTree::to_bencode over a
directory's children. -/
def dirEntriesB (l : List FileTree) : List (List Nat × Bencode) :=
  idxInsertMany [] (childEntriesList l)

/-- FileTree::to_bencode of src/src/main.rs; calling it on a File panics
(none), a Directory ignores its own name and emits its children. -/
def FileTree.to_bencode : FileTree → Option Bencode
  | .File _ _ => none
  | .Directory _ c => some (.Dictionary (dirEntriesB c))

/-- Accumulated state of the Info::parse field loop, with the Rust local
defaults. -/
structure InfoAcc where
  name : List Nat := []
  piece_length : Nat := 0
  meta_version : Nat := 0
  file_tree : FileTree := .Directory [] []
  pieces : Option (List (List Nat)) := none
  priv : Option Bool := none
  length? : Option Nat := none
  md5sum? : Option (List Nat) := none
  files? : Option (List FileV1) := none

/-- The files branch of Info::parse: non-dictionary list entries are skipped;
a missing or mistyped length or path panics (none); an empty attr string
panics in chars().next().unwrap() (none). -/
def parseFilesV1 : List Bencode → Option (List FileV1)
  | [] => some []
  | .Dictionary file :: t =>
    let attrStep : Option (Option (List Nat)) :=
      match idxLookup file kAttr with
      | some (.String a) =>
        match utf8First (fromUtf8Lossy a) with
        | some c => some (some c)
        | none => none
      | _ => some none
    match attrStep with
    | none => none
    | some attr =>
      match idxLookup file kLength with
      | some (.Integer n) =>
        let md5sum : Option (List Nat) :=
          match idxLookup file kMd5sum with
          | some (.String md) => some md
          | _ => none
        match idxLookup file kPath with
        | some (.List pl) =>
          let comps := pl.filterMap fun c =>
            match c with
            | Bencode.String nb => some (fromUtf8Lossy nb)
            | _ => none
          match parseFilesV1 t with
          | some rest => some (⟨i64AsU32 n, md5sum, joinSlash comps, attr⟩ :: rest)
          | none => none
        | _ => none
      | _ => none
  | _ :: t => parseFilesV1 t

/-- Field loop of Info::parse: keys are matched through from_utf8_lossy,
wrong-typed values are silently skipped, unknown keys only print a
diagnostic, and only the file-tree and files branches can panic (none). -/
def infoEntries : List (List Nat × Bencode) → InfoAcc → Option InfoAcc
  | [], st => some st
  | (k, v) :: t, st =>
    let ks := fromUtf8Lossy k
    if ks = kName then
      infoEntries t (match v with | .String b => { st with name := fromUtf8Lossy b } | _ => st)
    else if ks = kPieceLength then
      infoEntries t
        (match v with | .Integer n => { st with piece_length := i64AsU32 n } | _ => st)
    else if ks = kMetaVersion then
      infoEntries t
        (match v with | .Integer n => { st with meta_version := i64AsU8 n } | _ => st)
    else if ks = kFileTree then
      match FileTree.parse v with
      | some c => infoEntries t { st with file_tree := .Directory [] c }
      | none => none
    else if ks = kPieces then
      infoEntries t
        (match v with | .String b => { st with pieces := some (chunks20 b) } | _ => st)
    else if ks = kPrivate then
      infoEntries t
        (match v with | .Integer n => { st with priv := some (decide (n ≠ 0)) } | _ => st)
    else if ks = kLength then
      infoEntries t
        (match v with | .Integer n => { st with length? := some (i64AsU32 n) } | _ => st)
    else if ks = kMd5sum then
      infoEntries t (match v with | .String b => { st with md5sum? := some b } | _ => st)
    else if ks = kFiles then
      match v with
      | .List fl =>
        match parseFilesV1 fl with
        | some fs => infoEntries t { st with files? := some fs }
        | none => none
      | _ => infoEntries t st
    else
      infoEntries t st

/-- Info::parse of src/src/main.rs: run the field loop, then derive file_mode
(files wins over length; a Single mode always wraps md5sum.unwrap_or_default
in Some). -/
def Info.parse : Bencode → Option Info
  | .Dictionary d =>
    match infoEntries d {} with
    | some st =>
      let file_mode : Option FileModeV1 :=
        match st.files? with
        | some fs => some (.Multiple fs)
        | none =>
          match st.length? with
          | some l => some (.Single l (some (st.md5sum?.getD [])))
          | none => none
      some ⟨st.name, st.piece_length, st.meta_version, st.file_tree, st.pieces, st.priv,
        file_mode⟩
    | none => none
  | _ => none

/-- Per-file dictionary building in Info::to_bencode (Multiple branch):
attr?, length, md5sum?, path split on slashes; PathBuf::to_str().unwrap()
panics on invalid UTF-8 (none). -/
def filesToBencode : List FileV1 → Option (List Bencode)
  | [] => some []
  | f :: t =>
    if validUtf8 f.path then
      let m1 : List (List Nat × Bencode) :=
        match f.attr with
        | some c => idxInsert [] kAttr (.String c)
        | none => []
      let m2 := idxInsert m1 kLength (.Integer (f.length : Int))
      let m3 :=
        match f.md5sum with
        | some md => idxInsert m2 kMd5sum (.String md)
        | none => m2
      let comps := (splitOnSlash f.path).map fun c => Bencode.String c
      let m4 := idxInsert m3 kPath (.List comps)
      match filesToBencode t with
      | some rest => some (.Dictionary m4 :: rest)
      | none => none
    else none

/-- Info::to_bencode of src/src/main.rs: rebuild the info dictionary from the
typed fields in the fixed insertion order file tree, length/md5sum or files,
meta version, name, piece length, private, pieces. -/
def Info.to_bencode (i : Info) : Option Bencode :=
  match FileTree.to_bencode i.file_tree with
  | none => none
  | some ftb =>
    let e1 := idxInsert [] kFileTree ftb
    let modeEntries : Option (List (List Nat × Bencode)) :=
      match i.file_mode with
      | none => some e1
      | some (.Single l m) =>
        let a := idxInsert e1 kLength (.Integer (l : Int))
        some (match m with | some md => idxInsert a kMd5sum (.String md) | none => a)
      | some (.Multiple fs) =>
        match filesToBencode fs with
        | some bs => some (idxInsert e1 kFiles (.List bs))
        | none => none
    match modeEntries with
    | none => none
    | some e2 =>
      let e3 := idxInsert e2 kMetaVersion (.Integer (i.meta_version : Int))
      let e4 := idxInsert e3 kName (.String i.name)
      let e5 := idxInsert e4 kPieceLength (.Integer (i.piece_length : Int))
      let e6 :=
        match i.priv with
        | some p => idxInsert e5 kPrivate (.Integer (if p then 1 else 0))
        | none => e5
      let e7 :=
        match i.pieces with
        | some ps => idxInsert e6 kPieces (.String ps.flatten)
        | none => e6
      some (.Dictionary e7)

/-- The Torrent struct of src/src/main.rs; piece_layers is a HashMap in the
source, modelled as an association list. -/
structure Torrent where
  announce : List Nat
  info : Info
  piece_layers : List (List Nat × List Nat)
  deriving DecidableEq

/-- Accumulated state of the Torrent::parse key loop. -/
structure TorrAcc where
  announce : List Nat := []
  info : Info := defaultInfo
  piece_layers : List (List Nat × List Nat) := []

/-- Value extraction for the piece layers dictionary: every value must be a
byte-string, otherwise Torrent::parse panics (none). -/
def plEntries : List (List Nat × Bencode) → Option (List (List Nat × List Nat))
  | [] => some []
  | (k, v) :: t =>
    match v with
    | .String b =>
      match plEntries t with
      | some rest => some ((k, b) :: rest)
      | none => none
    | _ => none

/-- Key loop of Torrent::parse: announce must be a byte-string (else panic),
info delegates to Info::parse, a non-dictionary piece layers degrades to an
empty mapping, and any other key panics (Invalid key in metainfo). -/
def torrEntries : List (List Nat × Bencode) → TorrAcc → Option TorrAcc
  | [], st => some st
  | (k, v) :: t, st =>
    if validUtf8 k then
      if k = kAnnounce then
        match v with
        | .String a => torrEntries t { st with announce := fromUtf8Lossy a }
        | _ => none
      else if k = kInfo then
        match Info.parse v with
        | some i => torrEntries t { st with info := i }
        | none => none
      else if k = kPieceLayers then
        match v with
        | .Dictionary pl =>
          match plEntries pl with
          | some m => torrEntries t { st with piece_layers := m }
          | none => none
        | _ => torrEntries t { st with piece_layers := [] }
      else none
    else none

/-- Torrent::parse of src/src/main.rs: the root value must be a dictionary. -/
def Torrent.parse : Bencode → Option Torrent
  | .Dictionary d =>
    match torrEntries d {} with
    | some st => some ⟨st.announce, st.info, st.piece_layers⟩
    | none => none
  | _ => none

mutual
/-- Every pieces_root held by the leaves of a file tree. -/
def collectRoots : FileTree → List (List Nat)
  | .File _ f =>
    match f.pieces_root with
    | some r => [r]
    | none => []
  | .Directory _ c => collectRootsList c
def collectRootsList : List FileTree → List (List Nat)
  | [] => []
  | ft :: t => collectRoots ft ++ collectRootsList t
end

/-- Modelled from the spec: Info::get_infohash is absent from src/ (main.rs
has no such function; only the tests hash encoded bytes inline). Per section
4.4 it is hash_function(encode(to_bencode())) with the hash requested by the
caller, so the hash is an explicit function parameter here. -/
def Info.get_infohash (hashFn : List Nat → List Nat) (i : Info) : Option (List Nat) :=
  match Info.to_bencode i with
  | some v => some (hashFn (encB v))
  | none => none

/-- Modelled from the spec: Torrent::verify_infohash is absent from src/.
Section 4.4: fails (false) if the computed hash differs from expected;
otherwise collects every pieces_root held by leaves of file_tree and fails if
any key of piece_layers is not among them; success means both checks pass. -/
def Torrent.verify_infohash (hashFn : List Nat → List Nat) (t : Torrent)
    (expected : List Nat) : Bool :=
  match Info.get_infohash hashFn t.info with
  | none => false
  | some h =>
    if h = expected then
      t.piece_layers.all fun p => memB p.1 (collectRoots t.info.file_tree)
    else false

/-- Name of a file-tree node. -/
def ftName : FileTree → List Nat
  | .File n _ => n
  | .Directory n _ => n

/-- Names of the children of a directory, in order. -/
def namesOf (l : List FileTree) : List (List Nat) := l.map ftName

mutual
/-- Well-formedness of one directory child for the round-trip theorems: names
are valid UTF-8, file lengths fit u32, and a nested directory has no child
named with the empty string (such a child would make the parent's dictionary
contain the empty key, so FileTree::parse would misclassify the directory as a
file) and itself has well-formed, duplicate-free children. -/
def wfEntry : FileTree → Bool
  | .File n f => validUtf8 n && decide (f.length < 2 ^ 32)
  | .Directory n c =>
    validUtf8 n && !(memB [] (namesOf c)) && nodupB (namesOf c) && wfEntries c
def wfEntries : List FileTree → Bool
  | [] => true
  | ft :: t => wfEntry ft && wfEntries t
end

/-- Well-formed top-level directory contents: duplicate-free names plus
well-formed entries. -/
def wfDirList (l : List FileTree) : Bool := nodupB (namesOf l) && wfEntries l

/-- A byte list that is exactly one valid UTF-8 character. -/
def isSingleChar (c : List Nat) : Bool :=
  validUtf8 c &&
    match utf8First c with
    | some c' => c' = c
    | none => false

/-- Well-formedness of a legacy file entry for the round-trip theorems: u32
length, every slash-separated path component valid UTF-8, and attr (when
present) a single character. -/
def wfFileV1 (f : FileV1) : Bool :=
  decide (f.length < 2 ^ 32) &&
    (splitOnSlash f.path).all validUtf8 &&
    (match f.attr with
     | none => true
     | some c => isSingleChar c)

/-- Values of Info that Info::to_bencode and Info::parse map back to the same
canonical dictionary: UTF-8 name, u32 piece length, u8 meta version, a
well-formed directory as file tree, and a file mode whose Single md5sum is
present and whose Multiple entries are well formed. -/
def wfInfo (i : Info) : Bool :=
  validUtf8 i.name &&
    decide (i.piece_length < 2 ^ 32) &&
    decide (i.meta_version < 2 ^ 8) &&
    (match i.file_tree with
     | .Directory _ c => wfDirList c
     | .File _ _ => false) &&
    (match i.file_mode with
     | none => true
     | some (.Single l m) => decide (l < 2 ^ 32) && m.isSome
     | some (.Multiple fs) => fs.all wfFileV1)

/-! Lemmas about the stateful encoder. -/

mutual
theorem encode_value_drain : ∀ v : Bencode, (encode_value v).2 = drain v
  | .String s => rfl
  | .Integer i => rfl
  | .List l => by simp [encode_value, drain, encodeListM_drain l]
  | .Dictionary d => by simp [encode_value, drain, encodeDictM_drain d]
theorem encodeListM_drain : ∀ l : List Bencode, (encodeListM l).2 = drainList l
  | [] => rfl
  | v :: t => by simp [encodeListM, drainList, encode_value_drain v, encodeListM_drain t]
theorem encodeDictM_drain :
    ∀ d : List (List Nat × Bencode), (encodeDictM d).2 = drainDict d
  | [] => rfl
  | (k, v) :: t => by
    simp [encodeDictM, drainDict, encode_value_drain v, encodeDictM_drain t]
end

/-! Lemmas for the decoder key invariant. -/

theorem keysValidList_append (a b : List Bencode) :
    keysValidList (a ++ b) = (keysValidList a && keysValidList b) := by
  induction a with
  | nil => simp [keysValidList]
  | cons x xs ih => simp [keysValidList, ih, Bool.and_assoc]

theorem keysValidDict_idxInsert (d : List (List Nat × Bencode)) (k : List Nat) (v : Bencode)
    (hd : keysValidDict d = true) (hk : validUtf8 k = true) (hv : keysValid v = true) :
    keysValidDict (idxInsert d k v) = true := by
  induction d with
  | nil => simp [idxInsert, keysValidDict, hk, hv]
  | cons p t ih =>
    obtain ⟨k', v'⟩ := p
    simp only [keysValidDict, Bool.and_eq_true] at hd
    by_cases hkk : k' = k
    · simp [idxInsert, hkk, keysValidDict, hd.1.1, hd.2, hk, hv]
    · simp [idxInsert, hkk, keysValidDict, hd.1.1, hd.1.2, ih hd.2]

theorem decodeStr_keysValid (input : List Nat) (v : Bencode) (r : List Nat)
    (h : decodeStr input = some (v, r)) : keysValid v = true := by
  simp only [decodeStr] at h
  repeat' split at h
  all_goals (try exact Option.noConfusion h)
  simp only [Option.some.injEq, Prod.mk.injEq] at h
  rw [← h.1]
  rfl

theorem decodeInt_keysValid (input : List Nat) (v : Bencode) (r : List Nat)
    (h : decodeInt input = some (v, r)) : keysValid v = true := by
  simp only [decodeInt] at h
  repeat' split at h
  all_goals (try exact Option.noConfusion h)
  simp only [Option.some.injEq, Prod.mk.injEq] at h
  rw [← h.1]
  rfl

mutual
theorem decodeF_keysValid :
    ∀ (f : Nat) (input : List Nat) (v : Bencode) (r : List Nat),
      decodeF f input = some (v, r) → keysValid v = true
  | 0, input, v, r => by simp [decodeF]
  | Nat.succ f, input, v, r => by
    intro h
    cases input with
    | nil => simp [decodeF] at h
    | cons b t =>
      simp only [decodeF] at h
      split at h
      · exact decodeStr_keysValid _ _ _ h
      · split at h
        · exact decodeInt_keysValid _ _ _ h
        · split at h
          · exact decodeListF_keysValid f [] _ v r rfl h
          · split at h
            · exact decodeDictF_keysValid f [] _ v r rfl h
            · simp at h
theorem decodeListF_keysValid :
    ∀ (f : Nat) (acc : List Bencode) (input : List Nat) (v : Bencode) (r : List Nat),
      keysValidList acc = true → decodeListF f acc input = some (v, r) → keysValid v = true
  | 0, acc, input, v, r => by simp [decodeListF]
  | Nat.succ f, acc, input, v, r => by
    intro hacc h
    simp only [decodeListF] at h
    split at h
    case h_2 => exact Option.noConfusion h
    case h_1 v' rest heq =>
      have hv' : keysValid v' = true := decodeF_keysValid f input v' rest heq
      have hacc' : keysValidList (acc ++ [v']) = true := by
        simp [keysValidList_append, keysValidList, hacc, hv']
      split at h
      case h_1 => exact Option.noConfusion h
      case h_2 c r' =>
        split at h
        · simp only [Option.some.injEq, Prod.mk.injEq] at h
          rw [← h.1]
          simpa [keysValid] using hacc'
        · exact decodeListF_keysValid f (acc ++ [v']) (c :: r') v r hacc' h
theorem decodeDictF_keysValid :
    ∀ (f : Nat) (acc : List (List Nat × Bencode)) (input : List Nat) (v : Bencode)
      (r : List Nat),
      keysValidDict acc = true → decodeDictF f acc input = some (v, r) → keysValid v = true
  | 0, acc, input, v, r => by simp [decodeDictF]
  | Nat.succ f, acc, input, v, r => by
    intro hacc h
    simp only [decodeDictF] at h
    split at h
    case h_2 => exact Option.noConfusion h
    case h_3 => exact Option.noConfusion h
    case h_1 keyBytes rest heq =>
      split at h
      case h_2 => exact Option.noConfusion h
      case h_1 v' rest2 heq2 =>
        have hv' : keysValid v' = true := decodeF_keysValid f rest v' rest2 heq2
        split at h
        case isFalse => exact Option.noConfusion h
        case isTrue hk =>
          have hacc' : keysValidDict (idxInsert acc keyBytes v') = true :=
            keysValidDict_idxInsert acc keyBytes v' hacc hk hv'
          split at h
          case h_1 => exact Option.noConfusion h
          case h_2 c r' =>
            split at h
            · simp only [Option.some.injEq, Prod.mk.injEq] at h
              rw [← h.1]
              simpa [keysValid] using hacc'
            · exact decodeDictF_keysValid f (idxInsert acc keyBytes v') (c :: r') v r hacc' h
end

/-! Claim theorems for the codec. -/

/-- C1 (code_bug evaluation): the claimed round-trip fails at the empty list
and the empty dictionary. encode of List [] is le and of Dictionary [] is de,
yet decode_value panics on both (the list and dictionary loops decode one
element before checking for the e terminator, and decoding the bare tail e
hits the unhandled-tag panic), instead of returning the value with an empty
remainder. -/
theorem decode_encode_empty_collections_crash :
    decode_value (encB (Bencode.List [])) = none ∧
    decode_value (encB (Bencode.Dictionary [])) = none ∧
    encB (Bencode.List []) = [108, 101] ∧
    encB (Bencode.Dictionary []) = [100, 101] := by decide

/-- C4 (code_bug evaluation): decode_value does crash on malformed input; it
has no error-return channel at all. Each listed malformed input panics in the
source (unwrap on None, out-of-bounds slice, or an explicit panic), modelled
here as none: empty input, unterminated i5, leading-zero i03e, i-0e,
truncated payload 3:ab, unrecognized tag x, non-string dictionary key in
di3e0:e, and unterminated list li3e. -/
theorem decode_malformed_input_panics :
    decode_value [] = none ∧
    decode_value [105, 53] = none ∧
    decode_value [105, 48, 51, 101] = none ∧
    decode_value [105, 45, 48, 101] = none ∧
    decode_value [51, 58, 97, 98] = none ∧
    decode_value [120] = none ∧
    decode_value [100, 105, 51, 101, 48, 58, 101] = none ∧
    decode_value [108, 105, 51, 101] = none := by decide

/-- C7 (code_bug evaluation): the leading-zero check only inspects the first
byte of the digit run, so the signed form i-03e is silently decoded to the
integer -3 with empty remainder, although the claim (and the panic message of
the source itself) requires every non-canonical leading-zero form to fail;
the unsigned form i03e and the exact form i-0e do fail. -/
theorem decode_integer_leading_zero_check :
    decode_value [105, 45, 48, 51, 101] = some (Bencode.Integer (-3), []) ∧
    decode_value [105, 48, 51, 101] = none ∧
    decode_value [105, 45, 48, 101] = none := by decide

/-- C3 (counterexample): calling encode_value twice in succession on the value
String "Hey" yields 3:Hey first and 0: second, because the first call drains
the payload via Vec::append; so the two byte sequences differ. -/
theorem encode_twice_differs_counterexample :
    (encode_value ((encode_value (Bencode.String [72, 101, 121])).2)).1 ≠
      (encode_value (Bencode.String [72, 101, 121])).1 := by decide

/-- C3 (amended): encode_value is deterministic as a function of the value it
reads, but it mutates its receiver: after one call every byte-string payload
outside dictionary keys is drained to empty, so the second successive call
returns the encoding of the drained value rather than the original bytes. -/
theorem encode_value_mutates_to_drain :
    ∀ v : Bencode, (encode_value v).2 = drain v ∧
      (encode_value ((encode_value v).2)).1 = (encode_value (drain v)).1 :=
  fun v => ⟨encode_value_drain v, by rw [encode_value_drain v]⟩

/-- C10: every Value produced by decode_value has only valid-UTF-8 dictionary
keys, at every nesting level, because each decoded key passes through
String::from_utf8(...).unwrap(); an input whose dictionary holds a key that
is not valid UTF-8 therefore never decodes to a Dictionary containing it. -/
theorem decode_dictionary_keys_utf8 :
    ∀ (input : List Nat) (v : Bencode) (rest : List Nat),
      decode_value input = some (v, rest) → keysValid v = true :=
  fun _ v rest h => decodeF_keysValid _ _ v rest h

/-- Witness for C10 at the concrete input d3:fooi1ee. -/
theorem decode_dictionary_keys_utf8_witness :
    keysValid (Bencode.Dictionary [([102, 111, 111], Bencode.Integer 1)]) = true :=
  decode_dictionary_keys_utf8 [100, 51, 58, 102, 111, 111, 105, 49, 101, 101]
    (Bencode.Dictionary [([102, 111, 111], Bencode.Integer 1)]) [] (by decide)

/-! Lemmas for the metadata model claims. -/

theorem memB_eq_true_iff (x : List Nat) (l : List (List Nat)) :
    memB x l = true ↔ x ∈ l := by
  induction l with
  | nil => simp [memB]
  | cons y t ih => simp [memB, ih]

theorem torrEntries_unknown_key :
    ∀ (entries : List (List Nat × Bencode)) (st : TorrAcc) (k : List Nat) (v : Bencode),
      (k, v) ∈ entries → k ≠ kAnnounce → k ≠ kInfo → k ≠ kPieceLayers →
      torrEntries entries st = none := by
  intro entries
  induction entries with
  | nil => intro st k v h _ _ _; simp at h
  | cons p t ih =>
    intro st k v hmem h1 h2 h3
    obtain ⟨k', v'⟩ := p
    simp only [torrEntries]
    rcases List.mem_cons.mp hmem with heq | hmem'
    · obtain ⟨rfl, rfl⟩ := Prod.mk.injEq .. ▸ heq
      by_cases hu : validUtf8 k = true
      · rw [if_pos hu, if_neg h1, if_neg h2, if_neg h3]
      · rw [if_neg hu]
    · by_cases hu : validUtf8 k' = true
      case neg => rw [if_neg hu]
      case pos =>
        rw [if_pos hu]
        by_cases ha : k' = kAnnounce
        · rw [if_pos ha]
          cases v' <;> first
            | rfl
            | exact ih _ k v hmem' h1 h2 h3
        · rw [if_neg ha]
          by_cases hi : k' = kInfo
          · rw [if_pos hi]
            cases hI : Info.parse v' with
            | none => simp [hI]
            | some i => simp only [hI]; exact ih _ k v hmem' h1 h2 h3
          · rw [if_neg hi]
            by_cases hp : k' = kPieceLayers
            · rw [if_pos hp]
              cases v' with
              | Dictionary pl =>
                cases hP : plEntries pl with
                | none => simp [hP]
                | some m => simp only [hP]; exact ih _ k v hmem' h1 h2 h3
              | String s => exact ih _ k v hmem' h1 h2 h3
              | Integer i => exact ih _ k v hmem' h1 h2 h3
              | List l => exact ih _ k v hmem' h1 h2 h3
            · rw [if_neg hp]

theorem chunksAux_flatten :
    ∀ (f : Nat) (b : List Nat), b.length ≤ f → (chunksAux f b).flatten = b := by
  intro f
  induction f with
  | zero =>
    intro b hb
    have : b = [] := List.eq_nil_of_length_eq_zero (Nat.le_zero.mp hb)
    subst this
    rfl
  | succ f ih =>
    intro b hb
    cases b with
    | nil => rfl
    | cons x t =>
      simp only [chunksAux, List.flatten_cons]
      have hlc : (x :: t).length = t.length + 1 := rfl
      have hd : ((x :: t).drop 20).length ≤ f := by
        rw [List.length_drop]
        omega
      rw [ih _ hd]
      exact List.take_append_drop 20 (x :: t)

theorem chunksAux_length :
    ∀ (f : Nat) (b : List Nat), b.length ≤ f → 20 ∣ b.length →
      ∀ c ∈ chunksAux f b, c.length = 20 := by
  intro f
  induction f with
  | zero =>
    intro b hb _
    have : b = [] := List.eq_nil_of_length_eq_zero (Nat.le_zero.mp hb)
    subst this
    simp [chunksAux]
  | succ f ih =>
    intro b hb hdvd c hc
    cases b with
    | nil => simp [chunksAux] at hc
    | cons x t =>
      have hlc : (x :: t).length = t.length + 1 := rfl
      obtain ⟨m, hm⟩ := hdvd
      rw [hlc] at hm hb
      have hm0 : m ≠ 0 := by omega
      simp only [chunksAux, List.mem_cons] at hc
      rcases hc with rfl | hc
      · rw [List.length_take, hlc]
        omega
      · apply ih ((x :: t).drop 20) ?_ ?_ c hc
        · rw [List.length_drop, hlc]
          omega
        · refine ⟨m - 1, ?_⟩
          rw [List.length_drop, hlc]
          omega

theorem chunks20_flatten (b : List Nat) : (chunks20 b).flatten = b :=
  chunksAux_flatten b.length b le_rfl

theorem chunks20_length (b : List Nat) (hdvd : 20 ∣ b.length) :
    ∀ c ∈ chunks20 b, c.length = 20 :=
  chunksAux_length b.length b le_rfl hdvd

/-- C5 (counterexample): a metainfo dictionary whose only key is the unknown
bar is not accepted: Torrent::parse panics (Invalid key in metainfo) instead
of ignoring the key and returning a Torrent. -/
theorem torrent_parse_unknown_key_counterexample :
    Torrent.parse (Bencode.Dictionary [([98, 97, 114], Bencode.String [])]) = none := by
  decide

/-- C5 (amended): unknown top-level metainfo keys are always fatal: whenever
the dictionary contains an entry whose key is none of announce, info and
piece layers, Torrent::parse panics (none); only Info::parse ignores unknown
keys with a diagnostic. -/
theorem torrent_parse_unknown_key_fatal :
    ∀ (d : List (List Nat × Bencode)) (k : List Nat) (v : Bencode),
      (k, v) ∈ d → k ≠ kAnnounce → k ≠ kInfo → k ≠ kPieceLayers →
      Torrent.parse (Bencode.Dictionary d) = none := by
  intro d k v hmem h1 h2 h3
  simp only [Torrent.parse]
  rw [torrEntries_unknown_key d {} k v hmem h1 h2 h3]

/-- Witness for C5 at the concrete metainfo dictionary with single key foo. -/
theorem torrent_parse_unknown_key_fatal_witness :
    Torrent.parse (Bencode.Dictionary [([102, 111, 111], Bencode.Integer 0)]) = none :=
  torrent_parse_unknown_key_fatal [([102, 111, 111], Bencode.Integer 0)]
    [102, 111, 111] (Bencode.Integer 0) (by simp) (by decide) (by decide) (by decide)

/-- C8 (counterexample): a pieces byte-string of 21 bytes is not reported as a
data error; Info::parse succeeds and keeps a final 1-byte chunk. -/
theorem info_parse_pieces_short_chunk_counterexample :
    (Info.parse
          (Bencode.Dictionary [(kPieces, Bencode.String (List.replicate 21 7))])).map
        Info.pieces =
      some (some [List.replicate 20 7, [7]]) := by decide

/-- C8 (amended): Info::parse performs no length check on pieces: for every
byte-string b it succeeds with pieces equal to the consecutive chunks of 20
bytes whose concatenation is exactly b (the final chunk shorter when the
length is not a multiple of 20, never dropped); when the length is a multiple
of 20 every chunk has exactly 20 bytes. -/
theorem info_parse_pieces_chunks :
    ∀ b : List Nat,
      (Info.parse (Bencode.Dictionary [(kPieces, Bencode.String b)])).map Info.pieces =
          some (some (chunks20 b)) ∧
        (chunks20 b).flatten = b ∧
        (20 ∣ b.length → ∀ c ∈ chunks20 b, c.length = 20) := by
  intro b
  refine ⟨?_, chunks20_flatten b, fun h => chunks20_length b h⟩
  simp only [Info.parse, infoEntries]
  rw [if_neg (by decide : ¬(fromUtf8Lossy kPieces = kName)),
    if_neg (by decide : ¬(fromUtf8Lossy kPieces = kPieceLength)),
    if_neg (by decide : ¬(fromUtf8Lossy kPieces = kMetaVersion)),
    if_neg (by decide : ¬(fromUtf8Lossy kPieces = kFileTree)),
    if_pos (by decide : fromUtf8Lossy kPieces = kPieces)]
  simp only [infoEntries]
  rfl

/-- Witness for C8 at a 40-byte pieces blob, discharging the divisibility
hypothesis. -/
theorem info_parse_pieces_chunks_witness :
    (Info.parse
            (Bencode.Dictionary [(kPieces, Bencode.String (List.replicate 40 3))])).map
          Info.pieces =
        some (some (chunks20 (List.replicate 40 3))) ∧
      ∀ c ∈ chunks20 (List.replicate 40 3), c.length = 20 := by
  have h := info_parse_pieces_chunks (List.replicate 40 3)
  exact ⟨h.1, h.2.2 (by decide)⟩

/-- C9: characterization of the spec-modelled Torrent::verify_infohash, with
the hash as an explicit function parameter: the check succeeds exactly when
the hash computed over the encoded canonical info dictionary equals expected
and every key of piece_layers is among the pieces_root values collected from
the leaves of file_tree; in particular it returns false whenever the computed
hash differs from expected. -/
theorem verify_infohash_characterization :
    ∀ (hashFn : List Nat → List Nat) (t : Torrent) (expected : List Nat) (v : Bencode),
      Info.to_bencode t.info = some v →
      (Torrent.verify_infohash hashFn t expected = true ↔
        hashFn (encB v) = expected ∧
          ∀ p ∈ t.piece_layers, p.1 ∈ collectRoots t.info.file_tree) := by
  intro hashFn t expected v hv
  simp only [Torrent.verify_infohash, Info.get_infohash, hv]
  by_cases he : hashFn (encB v) = expected
  · simp [he, List.all_eq_true, memB_eq_true_iff]
  · simp [he]

/-- Witness for C9 at a trivial torrent with empty piece layers and a constant
hash function. -/
theorem verify_infohash_characterization_witness :
    Torrent.verify_infohash (fun _ => [42]) ⟨[], defaultInfo, []⟩ [42] = true := by
  have h := verify_infohash_characterization (fun _ => [42]) ⟨[], defaultInfo, []⟩ [42]
    (Bencode.Dictionary
      [(kFileTree, Bencode.Dictionary []), (kMetaVersion, Bencode.Integer 0),
        (kName, Bencode.String []), (kPieceLength, Bencode.Integer 0)])
    (by decide)
  exact h.mpr ⟨rfl, by simp⟩

/-! Plumbing lemmas for the file-tree round trip. -/

theorem i64AsU32_ofNat (n : Nat) (h : n < 2 ^ 32) : i64AsU32 (n : Int) = n := by
  unfold i64AsU32
  omega

theorem i64AsU8_ofNat (n : Nat) (h : n < 2 ^ 8) : i64AsU8 (n : Int) = n := by
  unfold i64AsU8
  omega

theorem nodupB_iff (l : List (List Nat)) : nodupB l = true ↔ l.Nodup := by
  induction l with
  | nil => simp [nodupB]
  | cons x t ih =>
    simp only [nodupB, Bool.and_eq_true, Bool.not_eq_true', List.nodup_cons, ih,
      ← memB_eq_true_iff, Bool.not_eq_true]

theorem idxInsert_append (acc : List (List Nat × Bencode)) (k : List Nat) (v : Bencode)
    (h : ∀ p ∈ acc, p.1 ≠ k) : idxInsert acc k v = acc ++ [(k, v)] := by
  induction acc with
  | nil => rfl
  | cons q t ih =>
    obtain ⟨k', v'⟩ := q
    have hk : k' ≠ k := h (k', v') (by simp)
    simp only [idxInsert, if_neg hk, List.cons_append, List.cons.injEq, true_and]
    exact ih fun p hp => h p (by simp [hp])

theorem idxInsertMany_eq :
    ∀ entries acc : List (List Nat × Bencode),
      (∀ p ∈ entries, ∀ q ∈ acc, q.1 ≠ p.1) → (entries.map Prod.fst).Nodup →
      idxInsertMany acc entries = acc ++ entries := by
  intro entries
  induction entries with
  | nil => intro acc _ _; simp [idxInsertMany]
  | cons p t ih =>
    intro acc hd hnd
    obtain ⟨k, v⟩ := p
    simp only [List.map_cons, List.nodup_cons, List.mem_map] at hnd
    simp only [idxInsertMany]
    rw [idxInsert_append acc k v fun q hq => hd (k, v) (by simp) q hq]
    rw [ih (acc ++ [(k, v)]) ?_ hnd.2]
    · simp
    · intro p hp q hq
      rcases List.mem_append.mp hq with hq | hq
      · exact hd p (by simp [hp]) q hq
      · simp only [List.mem_singleton] at hq
        subst hq
        intro hkp
        exact hnd.1 ⟨p, hp, hkp.symm⟩

theorem idxLookup_eq_none (d : List (List Nat × Bencode)) (k : List Nat)
    (h : ∀ p ∈ d, p.1 ≠ k) : idxLookup d k = none := by
  induction d with
  | nil => rfl
  | cons q t ih =>
    obtain ⟨k', v'⟩ := q
    simp only [idxLookup, if_neg (h (k', v') (by simp))]
    exact ih fun p hp => h p (by simp [hp])

theorem childEntriesList_keys :
    ∀ c : List FileTree, (childEntriesList c).map Prod.fst = namesOf c
  | [] => rfl
  | x :: t => by
    cases x <;>
      simp [childEntriesList, childEntry, namesOf, ftName, childEntriesList_keys t]

theorem dirEntriesB_eq (c : List FileTree) (h : nodupB (namesOf c) = true) :
    dirEntriesB c = childEntriesList c := by
  unfold dirEntriesB
  rw [idxInsertMany_eq (childEntriesList c) [] (by simp) ?_]
  · simp
  · rw [childEntriesList_keys]
    exact (nodupB_iff _).mp h

theorem wfDirList_cons (x : FileTree) (t : List FileTree) (h : wfDirList (x :: t) = true) :
    wfEntry x = true ∧ wfDirList t = true := by
  simp only [wfDirList, wfEntries, namesOf, List.map_cons, nodupB, Bool.and_eq_true,
    Bool.not_eq_true'] at h ⊢
  exact ⟨h.2.1, h.1.2, h.2.2⟩

theorem ftEntries_childList :
    ∀ c : List FileTree, wfDirList c = true → ftEntries (childEntriesList c) = some c
  | [] => fun _ => rfl
  | .File k f :: t => fun hwf => by
    obtain ⟨hx, ht⟩ := wfDirList_cons _ _ hwf
    obtain ⟨len, pr⟩ := f
    simp only [wfEntry, Bool.and_eq_true, decide_eq_true_eq] at hx
    have hrec := ftEntries_childList t ht
    simp only [childEntriesList, childEntry, ftEntries, fileInner]
    rw [if_pos hx.1]
    cases pr with
    | none => simp [idxInsert, idxLookup, hrec, i64AsU32_ofNat len hx.2]
    | some prb =>
      simp [idxInsert, idxLookup, hrec, i64AsU32_ofNat len hx.2,
        if_neg (show ¬(kLength = kPiecesRoot) from by decide)]
  | .Directory k c' :: t => fun hwf => by
    obtain ⟨hx, ht⟩ := wfDirList_cons _ _ hwf
    simp only [wfEntry, Bool.and_eq_true, Bool.not_eq_true'] at hx
    have hwfc' : wfDirList c' = true := by
      simp only [wfDirList, Bool.and_eq_true]
      exact ⟨hx.1.2, hx.2⟩
    have hrec' := ftEntries_childList c' hwfc'
    have hrec := ftEntries_childList t ht
    simp only [childEntriesList, childEntry, ftEntries]
    rw [if_pos hx.1.1.1]
    rw [show idxInsertMany [] (childEntriesList c') = childEntriesList c' from
      dirEntriesB_eq c' hx.1.2]
    have hlook : idxLookup (childEntriesList c') [] = none := by
      apply idxLookup_eq_none
      intro p hp hp1
      have hmem : p.1 ∈ namesOf c' := by
        rw [← childEntriesList_keys]
        exact List.mem_map_of_mem _ hp
      rw [hp1] at hmem
      have := (memB_eq_true_iff [] (namesOf c')).mpr hmem
      rw [hx.1.1.2] at this
      exact Bool.noConfusion this
    simp only [hlook]
    simp only [FileTree.parse] at hrec' ⊢
    rw [hrec', hrec]

/-- C6 (counterexample): a directory child that itself contains a file named
with the empty string breaks the round trip: the parent dictionary of that
directory then has the empty key, FileTree::parse misclassifies the directory
as a file, finds no length field and panics, so parsing the re-encoded tree
does not return the original children. -/
theorem file_tree_roundtrip_counterexample :
    ((FileTree.Directory [] [FileTree.Directory [100] [FileTree.File [] ⟨0, none⟩]]).to_bencode).bind
        FileTree.parse ≠
      some [FileTree.Directory [100] [FileTree.File [] ⟨0, none⟩]] := by decide

/-- C6 (amended): FileTree parsing inverts re-encoding for every directory
with well-formed children: names valid UTF-8 and pairwise distinct at each
level, file lengths below 2^32, and no directory below the root containing a
child named with the empty string. Under these conditions
FileTree::parse(Directory(n, c).to_bencode()) returns exactly c. -/
theorem file_tree_roundtrip :
    ∀ (n : List Nat) (c : List FileTree), wfDirList c = true →
      ((FileTree.Directory n c).to_bencode).bind FileTree.parse = some c := by
  intro n c h
  have hnd : nodupB (namesOf c) = true := by
    simp only [wfDirList, Bool.and_eq_true] at h
    exact h.1
  simp only [FileTree.to_bencode, Option.bind, FileTree.parse]
  rw [show dirEntriesB c = childEntriesList c from dirEntriesB_eq c hnd]
  exact ftEntries_childList c h

/-- Witness for C6 at a tree shaped like the spec's example: a README-like
file and an images-like directory holding two files with pieces roots. -/
theorem file_tree_roundtrip_witness :
    ((FileTree.Directory []
            [FileTree.File [82] ⟨20, some [1, 2]⟩,
              FileTree.Directory [105]
                [FileTree.File [76] ⟨17614527, some [3]⟩,
                  FileTree.File [109] ⟨1682177, some [4]⟩]]).to_bencode).bind
        FileTree.parse =
      some
        [FileTree.File [82] ⟨20, some [1, 2]⟩,
          FileTree.Directory [105]
            [FileTree.File [76] ⟨17614527, some [3]⟩,
              FileTree.File [109] ⟨1682177, some [4]⟩]] :=
  file_tree_roundtrip []
    [FileTree.File [82] ⟨20, some [1, 2]⟩,
      FileTree.Directory [105]
        [FileTree.File [76] ⟨17614527, some [3]⟩,
          FileTree.File [109] ⟨1682177, some [4]⟩]] (by decide)

/-! UTF-8 lemmas used by the canonical info round trip. -/

theorem utf8SeqLen_pos_le (a : List Nat) (n : Nat) (h : utf8SeqLen a = some n) :
    1 ≤ n ∧ n ≤ a.length := by
  rcases a with _ | ⟨x, _ | ⟨c1, _ | ⟨c2, _ | ⟨c3, t3⟩⟩⟩⟩ <;>
    (simp only [utf8SeqLen] at h; repeat' split at h) <;>
    simp_all <;> omega

theorem utf8SeqLen_append (a b : List Nat) (n : Nat) (h : utf8SeqLen a = some n) :
    utf8SeqLen (a ++ b) = some n := by
  rcases a with _ | ⟨x, _ | ⟨c1, _ | ⟨c2, _ | ⟨c3, t3⟩⟩⟩⟩ <;>
    (simp only [utf8SeqLen, List.cons_append, List.nil_append] at h ⊢;
     repeat' split at h) <;>
    simp_all <;> (repeat' rw [if_neg (by omega)])

theorem lossyAux_of_valid :
    ∀ (f : Nat) (l : List Nat), validUtf8Aux f l = true → lossyAux f l = l := by
  intro f
  induction f with
  | zero =>
    intro l hv
    cases l with
    | nil => rfl
    | cons b t => exact Bool.noConfusion hv
  | succ f ih =>
    intro l hv
    cases l with
    | nil => rfl
    | cons b t =>
      simp only [validUtf8Aux] at hv
      simp only [lossyAux]
      cases hs : utf8SeqLen (b :: t) with
      | none => rw [hs] at hv; exact Bool.noConfusion hv
      | some n =>
        rw [hs] at hv
        simp only [hs]
        rw [ih _ hv]
        exact List.take_append_drop n (b :: t)

theorem fromUtf8Lossy_valid (l : List Nat) (h : validUtf8 l = true) :
    fromUtf8Lossy l = l :=
  lossyAux_of_valid l.length l h

theorem validUtf8Aux_mono :
    ∀ (f g : Nat) (l : List Nat), validUtf8Aux f l = true → f ≤ g →
      validUtf8Aux g l = true := by
  intro f
  induction f with
  | zero =>
    intro g l hv _
    cases l with
    | nil => cases g <;> rfl
    | cons b t => exact Bool.noConfusion hv
  | succ f ih =>
    intro g l hv hfg
    cases l with
    | nil => cases g <;> rfl
    | cons b t =>
      cases g with
      | zero => omega
      | succ g =>
        simp only [validUtf8Aux] at hv ⊢
        cases hs : utf8SeqLen (b :: t) with
        | none => rw [hs] at hv; exact Bool.noConfusion hv
        | some n =>
          rw [hs] at hv
          simp only [hs]
          exact ih g _ hv (by omega)

theorem validUtf8Aux_append :
    ∀ (f : Nat) (a : List Nat) (g : Nat) (b : List Nat),
      validUtf8Aux f a = true → validUtf8Aux g b = true →
      validUtf8Aux (f + g) (a ++ b) = true := by
  intro f
  induction f with
  | zero =>
    intro a g b ha hb
    cases a with
    | nil => simpa using validUtf8Aux_mono g (0 + g) b hb (by omega)
    | cons x t => exact Bool.noConfusion ha
  | succ f ih =>
    intro a g b ha hb
    cases a with
    | nil =>
      simpa using validUtf8Aux_mono g (Nat.succ f + g) b hb (by omega)
    | cons x t =>
      simp only [validUtf8Aux] at ha
      cases hs : utf8SeqLen (x :: t) with
      | none => rw [hs] at ha; exact Bool.noConfusion ha
      | some n =>
        simp only [hs] at ha
        have hsa := utf8SeqLen_append (x :: t) b n hs
        have hle := (utf8SeqLen_pos_le (x :: t) n hs).2
        rw [List.cons_append] at hsa
        show validUtf8Aux (Nat.succ f + g) ((x :: t) ++ b) = true
        have hsg : Nat.succ f + g = Nat.succ (f + g) := by omega
        rw [hsg, List.cons_append]
        simp only [validUtf8Aux, hsa]
        have hdrop : List.drop n (x :: (t ++ b)) = List.drop n (x :: t) ++ b := by
          rw [← List.cons_append, List.drop_append_of_le_length hle]
        rw [hdrop]
        exact ih _ g b ha hb

theorem validUtf8_append (a b : List Nat) (ha : validUtf8 a = true)
    (hb : validUtf8 b = true) : validUtf8 (a ++ b) = true := by
  unfold validUtf8 at ha hb ⊢
  rw [List.length_append]
  exact validUtf8Aux_append a.length a b.length b ha hb

theorem splitOnSlash_ne_nil : ∀ l : List Nat, splitOnSlash l ≠ [] := by
  intro l
  cases l with
  | nil => simp [splitOnSlash]
  | cons b t =>
    simp only [splitOnSlash]
    by_cases h : b = 47
    · simp [h]
    · rw [if_neg h]
      cases hs : splitOnSlash t with
      | nil => simp
      | cons x r => simp

theorem joinSlash_splitOnSlash : ∀ l : List Nat, joinSlash (splitOnSlash l) = l := by
  intro l
  induction l with
  | nil => rfl
  | cons b t ih =>
    simp only [splitOnSlash]
    by_cases h : b = 47
    · rw [if_pos h]
      cases hs : splitOnSlash t with
      | nil => exact absurd hs (splitOnSlash_ne_nil t)
      | cons x r =>
        rw [hs] at ih
        subst h
        simp only [joinSlash]
        rw [ih]
        rfl
    · rw [if_neg h]
      cases hs : splitOnSlash t with
      | nil => exact absurd hs (splitOnSlash_ne_nil t)
      | cons x r =>
        rw [hs] at ih
        cases r with
        | nil => simp only [joinSlash] at ih ⊢; rw [ih]
        | cons y rs =>
          simp only [joinSlash] at ih ⊢
          rw [List.cons_append, ih]

theorem validUtf8_ascii_cons (b : Nat) (t : List Nat) (hb : b ≤ 127)
    (ht : validUtf8 t = true) : validUtf8 (b :: t) = true := by
  have : validUtf8 [b] = true := by
    unfold validUtf8 validUtf8Aux
    simp [utf8SeqLen, hb, validUtf8Aux]
  simpa using validUtf8_append [b] t this ht

theorem validUtf8_joinSlash :
    ∀ comps : List (List Nat), (∀ c ∈ comps, validUtf8 c = true) →
      validUtf8 (joinSlash comps) = true := by
  intro comps
  induction comps with
  | nil => intro _; rfl
  | cons x xs ih =>
    intro h
    cases xs with
    | nil => exact h x (by simp)
    | cons y ys =>
      simp only [joinSlash]
      apply validUtf8_append x _ (h x (by simp))
      apply validUtf8_ascii_cons 47 _ (by omega)
      exact ih fun c hc => h c (by simp [hc])

theorem isSingleChar_valid (c : List Nat) (h : isSingleChar c = true) :
    validUtf8 c = true := by
  simp only [isSingleChar, Bool.and_eq_true] at h
  exact h.1

theorem isSingleChar_first (c : List Nat) (h : isSingleChar c = true) :
    utf8First c = some c := by
  simp only [isSingleChar, Bool.and_eq_true] at h
  obtain ⟨-, h⟩ := h
  cases hf : utf8First c with
  | none => rw [hf] at h; exact Bool.noConfusion h
  | some c' =>
    rw [hf] at h
    simp only [decide_eq_true_eq] at h
    rw [h]

theorem filterMap_string (fcn : Bencode → Option (List Nat))
    (hf : ∀ nb, fcn (Bencode.String nb) = some (fromUtf8Lossy nb)) :
    ∀ l : List (List Nat), (∀ c ∈ l, validUtf8 c = true) →
      ((l.map fun c => Bencode.String c).filterMap fcn) = l := by
  intro l
  induction l with
  | nil => intro _; rfl
  | cons x t ih =>
    intro h
    simp only [List.map_cons, List.filterMap_cons, hf]
    rw [fromUtf8Lossy_valid x (h x (by simp))]
    rw [ih fun c hc => h c (by simp [hc])]

theorem filesV1_roundtrip :
    ∀ fs : List FileV1, fs.all wfFileV1 = true →
      ∃ bs, filesToBencode fs = some bs ∧ parseFilesV1 bs = some fs := by
  intro fs
  induction fs with
  | nil => intro _; exact ⟨[], rfl, rfl⟩
  | cons f t ih =>
    intro hall
    simp only [List.all_cons, Bool.and_eq_true] at hall
    obtain ⟨hf, ht⟩ := hall
    obtain ⟨bs', hb', hp'⟩ := ih ht
    simp only [wfFileV1, Bool.and_eq_true, decide_eq_true_eq] at hf
    have hcomps : ∀ c ∈ splitOnSlash f.path, validUtf8 c = true := by
      intro c hc
      have := hf.1.2
      rw [List.all_eq_true] at this
      exact this c hc
    have hpathv : validUtf8 f.path = true := by
      have := validUtf8_joinSlash (splitOnSlash f.path) hcomps
      rwa [joinSlash_splitOnSlash] at this
    simp only [filesToBencode, if_pos hpathv]
    rw [hb']
    refine ⟨_, rfl, ?_⟩
    obtain ⟨len, md5, path, attr⟩ := f
    simp only at hf hcomps hpathv hp' ⊢
    have k1 : ¬(kLength = kAttr) := by decide
    have k2 : ¬(kPath = kAttr) := by decide
    have k3 : ¬(kLength = kPath) := by decide
    have k4 : ¬(kLength = kMd5sum) := by decide
    have k5 : ¬(kPath = kMd5sum) := by decide
    have k6 : ¬(kPath = kLength) := by decide
    have k7 : ¬(kAttr = kLength) := by decide
    have k8 : ¬(kAttr = kMd5sum) := by decide
    have k9 : ¬(kAttr = kPath) := by decide
    have k10 : ¬(kMd5sum = kPath) := by decide
    have k11 : ¬(kMd5sum = kAttr) := by decide
    have k12 : ¬(kMd5sum = kLength) := by decide
    cases attr with
    | none =>
      cases md5 with
      | none =>
        simp [parseFilesV1, idxInsert, idxLookup, hp', i64AsU32_ofNat len hf.1.1,
          k1, k2, k3, k4, k5, k6, k7, k8, k9, k10, k11, k12, -List.filterMap_map]
        rw [filterMap_string _ (fun nb => rfl) _ hcomps, joinSlash_splitOnSlash]
      | some md =>
        simp [parseFilesV1, idxInsert, idxLookup, hp', i64AsU32_ofNat len hf.1.1,
          k1, k2, k3, k4, k5, k6, k7, k8, k9, k10, k11, k12, -List.filterMap_map]
        rw [filterMap_string _ (fun nb => rfl) _ hcomps, joinSlash_splitOnSlash]
    | some c =>
      have hattr : isSingleChar c = true := hf.2
      cases md5 with
      | none =>
        simp [parseFilesV1, idxInsert, idxLookup, hp', i64AsU32_ofNat len hf.1.1,
          fromUtf8Lossy_valid c (isSingleChar_valid c hattr), isSingleChar_first c hattr,
          k1, k2, k3, k4, k5, k6, k7, k8, k9, k10, k11, k12, -List.filterMap_map]
        rw [filterMap_string _ (fun nb => rfl) _ hcomps, joinSlash_splitOnSlash]
      | some md =>
        simp [parseFilesV1, idxInsert, idxLookup, hp', i64AsU32_ofNat len hf.1.1,
          fromUtf8Lossy_valid c (isSingleChar_valid c hattr), isSingleChar_first c hattr,
          k1, k2, k3, k4, k5, k6, k7, k8, k9, k10, k11, k12, -List.filterMap_map]
        rw [filterMap_string _ (fun nb => rfl) _ hcomps, joinSlash_splitOnSlash]

/-- C2 (counterexample): the empty info dictionary is accepted by Info::parse,
but re-encoding the typed projection adds the defaulted fields file tree,
meta version, name and piece length, so the produced bytes differ from the
original bytes de. -/
theorem info_to_bencode_not_identity_counterexample :
    ((Info.parse (Bencode.Dictionary [])).bind Info.to_bencode).map encB ≠
      some (encB (Bencode.Dictionary [])) := by decide

/-- C2 (amended): re-encoding the typed projection reproduces the original
info-dictionary bytes exactly for dictionaries already in canonical shape,
i.e. in the image of to_bencode on well-formed Infos: for every such Info,
to_bencode succeeds, parsing its output is accepted, and re-encoding the
parsed projection returns the identical Value, hence identical bytes. For
other accepted inputs parse/to_bencode adds defaulted fields, drops unknown
keys, and emits the fixed key order (with private before pieces), so the
bytes differ. -/
theorem info_canonical_roundtrip :
    ∀ i : Info, wfInfo i = true →
      ((Info.to_bencode i).bind Info.parse).bind Info.to_bencode = Info.to_bencode i ∧
        (Info.to_bencode i).isSome = true := by
  intro i hwf
  obtain ⟨name, plen, mver, ftree, pieces, priv, fmode⟩ := i
  simp only [wfInfo, Bool.and_eq_true, decide_eq_true_eq] at hwf
  cases ftree with
  | File fn ff => simp at hwf
  | Directory dn c =>
    obtain ⟨⟨⟨⟨hname, hplen⟩, hmver⟩, hft⟩, hfm⟩ := hwf
    simp only [wfDirList, Bool.and_eq_true] at hft
    have hparseFT : FileTree.parse (Bencode.Dictionary (dirEntriesB c)) = some c := by
      simp only [FileTree.parse]
      rw [dirEntriesB_eq c hft.1]
      exact ftEntries_childList c (by simp only [wfDirList, Bool.and_eq_true]; exact hft)
    have q1 : ¬(kFileTree = kLength) := by decide
    have q2 : ¬(kFileTree = kMd5sum) := by decide
    have q3 : ¬(kFileTree = kFiles) := by decide
    have q4 : ¬(kFileTree = kMetaVersion) := by decide
    have q5 : ¬(kFileTree = kName) := by decide
    have q6 : ¬(kFileTree = kPieceLength) := by decide
    have q7 : ¬(kFileTree = kPrivate) := by decide
    have q8 : ¬(kFileTree = kPieces) := by decide
    have q9 : ¬(kLength = kFileTree) := by decide
    have q10 : ¬(kLength = kMd5sum) := by decide
    have q11 : ¬(kLength = kFiles) := by decide
    have q12 : ¬(kLength = kMetaVersion) := by decide
    have q13 : ¬(kLength = kName) := by decide
    have q14 : ¬(kLength = kPieceLength) := by decide
    have q15 : ¬(kLength = kPrivate) := by decide
    have q16 : ¬(kLength = kPieces) := by decide
    have q17 : ¬(kMd5sum = kFileTree) := by decide
    have q18 : ¬(kMd5sum = kLength) := by decide
    have q19 : ¬(kMd5sum = kFiles) := by decide
    have q20 : ¬(kMd5sum = kMetaVersion) := by decide
    have q21 : ¬(kMd5sum = kName) := by decide
    have q22 : ¬(kMd5sum = kPieceLength) := by decide
    have q23 : ¬(kMd5sum = kPrivate) := by decide
    have q24 : ¬(kMd5sum = kPieces) := by decide
    have q25 : ¬(kFiles = kFileTree) := by decide
    have q26 : ¬(kFiles = kLength) := by decide
    have q27 : ¬(kFiles = kMd5sum) := by decide
    have q28 : ¬(kFiles = kMetaVersion) := by decide
    have q29 : ¬(kFiles = kName) := by decide
    have q30 : ¬(kFiles = kPieceLength) := by decide
    have q31 : ¬(kFiles = kPrivate) := by decide
    have q32 : ¬(kFiles = kPieces) := by decide
    have q33 : ¬(kMetaVersion = kFileTree) := by decide
    have q34 : ¬(kMetaVersion = kLength) := by decide
    have q35 : ¬(kMetaVersion = kMd5sum) := by decide
    have q36 : ¬(kMetaVersion = kFiles) := by decide
    have q37 : ¬(kMetaVersion = kName) := by decide
    have q38 : ¬(kMetaVersion = kPieceLength) := by decide
    have q39 : ¬(kMetaVersion = kPrivate) := by decide
    have q40 : ¬(kMetaVersion = kPieces) := by decide
    have q41 : ¬(kName = kFileTree) := by decide
    have q42 : ¬(kName = kLength) := by decide
    have q43 : ¬(kName = kMd5sum) := by decide
    have q44 : ¬(kName = kFiles) := by decide
    have q45 : ¬(kName = kMetaVersion) := by decide
    have q46 : ¬(kName = kPieceLength) := by decide
    have q47 : ¬(kName = kPrivate) := by decide
    have q48 : ¬(kName = kPieces) := by decide
    have q49 : ¬(kPieceLength = kFileTree) := by decide
    have q50 : ¬(kPieceLength = kLength) := by decide
    have q51 : ¬(kPieceLength = kMd5sum) := by decide
    have q52 : ¬(kPieceLength = kFiles) := by decide
    have q53 : ¬(kPieceLength = kMetaVersion) := by decide
    have q54 : ¬(kPieceLength = kName) := by decide
    have q55 : ¬(kPieceLength = kPrivate) := by decide
    have q56 : ¬(kPieceLength = kPieces) := by decide
    have q57 : ¬(kPrivate = kFileTree) := by decide
    have q58 : ¬(kPrivate = kLength) := by decide
    have q59 : ¬(kPrivate = kMd5sum) := by decide
    have q60 : ¬(kPrivate = kFiles) := by decide
    have q61 : ¬(kPrivate = kMetaVersion) := by decide
    have q62 : ¬(kPrivate = kName) := by decide
    have q63 : ¬(kPrivate = kPieceLength) := by decide
    have q64 : ¬(kPrivate = kPieces) := by decide
    have q65 : ¬(kPieces = kFileTree) := by decide
    have q66 : ¬(kPieces = kLength) := by decide
    have q67 : ¬(kPieces = kMd5sum) := by decide
    have q68 : ¬(kPieces = kFiles) := by decide
    have q69 : ¬(kPieces = kMetaVersion) := by decide
    have q70 : ¬(kPieces = kName) := by decide
    have q71 : ¬(kPieces = kPieceLength) := by decide
    have q72 : ¬(kPieces = kPrivate) := by decide
    have w0 : fromUtf8Lossy kFileTree = kFileTree := by decide
    have w1 : fromUtf8Lossy kLength = kLength := by decide
    have w2 : fromUtf8Lossy kMd5sum = kMd5sum := by decide
    have w3 : fromUtf8Lossy kFiles = kFiles := by decide
    have w4 : fromUtf8Lossy kMetaVersion = kMetaVersion := by decide
    have w5 : fromUtf8Lossy kName = kName := by decide
    have w6 : fromUtf8Lossy kPieceLength = kPieceLength := by decide
    have w7 : fromUtf8Lossy kPrivate = kPrivate := by decide
    have w8 : fromUtf8Lossy kPieces = kPieces := by decide
    have hlossyName := fromUtf8Lossy_valid name hname
    have hpl := i64AsU32_ofNat plen hplen
    have hmv := i64AsU8_ofNat mver hmver
    have hprivL : ∀ p : Bool, decide ((if p then (1 : Int) else 0) ≠ 0) = p := by
      intro p
      cases p <;> decide
    cases fmode with
    | none =>
      cases priv <;> cases pieces <;>
        simp [Info.to_bencode, FileTree.to_bencode, Info.parse, infoEntries, idxInsert,
          hparseFT, hlossyName, hpl, hmv, hprivL, chunks20_flatten,
          q1, q2, q3, q4, q5, q6, q7, q8, q9, q10, q11, q12, q13, q14, q15, q16, q17, q18, q19, q20, q21, q22, q23, q24, q25, q26, q27, q28, q29, q30, q31, q32, q33, q34, q35, q36, q37, q38, q39, q40, q41, q42, q43, q44, q45, q46, q47, q48, q49, q50, q51, q52, q53, q54, q55, q56, q57, q58, q59, q60, q61, q62, q63, q64, q65, q66, q67, q68, q69, q70, q71, q72,
          w0, w1, w2, w3, w4, w5, w6, w7, w8]
    | some fm =>
      cases fm with
      | Single l m =>
        simp only [Bool.and_eq_true, decide_eq_true_eq] at hfm
        obtain ⟨hl, hms⟩ := hfm
        cases m with
        | none => simp at hms
        | some md =>
          have hll := i64AsU32_ofNat l hl
          cases priv <;> cases pieces <;>
            simp [Info.to_bencode, FileTree.to_bencode, Info.parse, infoEntries, idxInsert,
              idxLookup, hparseFT, hlossyName, hpl, hmv, hll, hprivL, chunks20_flatten,
              q1, q2, q3, q4, q5, q6, q7, q8, q9, q10, q11, q12, q13, q14, q15, q16, q17, q18, q19, q20, q21, q22, q23, q24, q25, q26, q27, q28, q29, q30, q31, q32, q33, q34, q35, q36, q37, q38, q39, q40, q41, q42, q43, q44, q45, q46, q47, q48, q49, q50, q51, q52, q53, q54, q55, q56, q57, q58, q59, q60, q61, q62, q63, q64, q65, q66, q67, q68, q69, q70, q71, q72,
              w0, w1, w2, w3, w4, w5, w6, w7, w8]
      | Multiple fs =>
        obtain ⟨bs, hfb, hfp⟩ := filesV1_roundtrip fs hfm
        cases priv <;> cases pieces <;>
          simp [Info.to_bencode, FileTree.to_bencode, Info.parse, infoEntries, idxInsert,
            idxLookup, hparseFT, hlossyName, hpl, hmv, hprivL, chunks20_flatten, hfb, hfp,
            q1, q2, q3, q4, q5, q6, q7, q8, q9, q10, q11, q12, q13, q14, q15, q16, q17, q18, q19, q20, q21, q22, q23, q24, q25, q26, q27, q28, q29, q30, q31, q32, q33, q34, q35, q36, q37, q38, q39, q40, q41, q42, q43, q44, q45, q46, q47, q48, q49, q50, q51, q52, q53, q54, q55, q56, q57, q58, q59, q60, q61, q62, q63, q64, q65, q66, q67, q68, q69, q70, q71, q72,
            w0, w1, w2, w3, w4, w5, w6, w7, w8]

/-- Witness for C2 at a concrete well-formed Info exercising the file tree,
pieces, private and single-file mode fields. -/
theorem info_canonical_roundtrip_witness :
    ((Info.to_bencode
              ⟨[110], 16, 1, FileTree.Directory [] [FileTree.File [97] ⟨5, some [9]⟩],
                some [[1, 2]], some true, some (FileModeV1.Single 7 (some [3]))⟩).bind
            Info.parse).bind
        Info.to_bencode =
      Info.to_bencode
        ⟨[110], 16, 1, FileTree.Directory [] [FileTree.File [97] ⟨5, some [9]⟩],
          some [[1, 2]], some true, some (FileModeV1.Single 7 (some [3]))⟩ ∧
      (Info.to_bencode
          ⟨[110], 16, 1, FileTree.Directory [] [FileTree.File [97] ⟨5, some [9]⟩],
            some [[1, 2]], some true, some (FileModeV1.Single 7 (some [3]))⟩).isSome =
        true :=
  info_canonical_roundtrip
    ⟨[110], 16, 1, FileTree.Directory [] [FileTree.File [97] ⟨5, some [9]⟩],
      some [[1, 2]], some true, some (FileModeV1.Single 7 (some [3]))⟩ (by decide)


theorem natDigitsAux_digits :
    ∀ (f n : Nat), ∀ b ∈ natDigitsAux f n, 48 ≤ b ∧ b ≤ 57 := by
  intro f
  induction f with
  | zero => intro n b hb; simp [natDigitsAux] at hb
  | succ f ih =>
    intro n b hb
    simp only [natDigitsAux] at hb
    by_cases h : n < 10
    · rw [if_pos h] at hb
      simp at hb
      omega
    · rw [if_neg h] at hb
      rcases List.mem_append.mp hb with hb | hb
      · exact ih _ b hb
      · simp at hb
        omega

theorem natDigits_digits (n : Nat) : ∀ b ∈ natDigits n, 48 ≤ b ∧ b ≤ 57 :=
  natDigitsAux_digits (n + 1) n

theorem natDigitsAux_ne_nil (f n : Nat) (h : 0 < f) : natDigitsAux f n ≠ [] := by
  cases f with
  | zero => omega
  | succ f =>
    simp only [natDigitsAux]
    split <;> simp

theorem natDigits_ne_nil (n : Nat) : natDigits n ≠ [] :=
  natDigitsAux_ne_nil (n + 1) n (by omega)

theorem digitsAcc_append (a b : List Nat) :
    ∀ acc : Nat, digitsAcc acc (a ++ b) =
      match digitsAcc acc a with
      | some acc' => digitsAcc acc' b
      | none => none := by
  induction a with
  | nil => intro acc; rfl
  | cons c t ih =>
    intro acc
    simp only [List.cons_append, digitsAcc]
    by_cases h : 48 ≤ c ∧ c ≤ 57
    · rw [if_pos h, if_pos h]
      exact ih _
    · rw [if_neg h, if_neg h]

theorem digitsAcc_natDigitsAux :
    ∀ (f n acc : Nat), n < f →
      digitsAcc acc (natDigitsAux f n) =
        some (acc * 10 ^ (natDigitsAux f n).length + n) := by
  intro f
  induction f with
  | zero => intro n acc h; omega
  | succ f ih =>
    intro n acc h
    simp only [natDigitsAux]
    by_cases h10 : n < 10
    · rw [if_pos h10]
      simp only [digitsAcc, List.length_cons, List.length_nil]
      rw [if_pos (by omega : 48 ≤ 48 + n ∧ 48 + n ≤ 57)]
      congr 1
      omega
    · rw [if_neg h10]
      rw [digitsAcc_append]
      rw [ih (n / 10) acc (by omega)]
      simp only [digitsAcc, List.length_append, List.length_cons, List.length_nil, Nat.zero_add]
      rw [if_pos (by omega : 48 ≤ 48 + n % 10 ∧ 48 + n % 10 ≤ 57)]
      congr 1
      have : (acc * 10 ^ (natDigitsAux f (n / 10)).length + n / 10) * 10 + (48 + n % 10 - 48) =
          acc * (10 ^ (natDigitsAux f (n / 10)).length * 10) + (n / 10 * 10 + n % 10) := by
        ring_nf
        omega
      rw [this, ← pow_succ]
      omega

theorem digitsAcc_natDigits (n : Nat) : digitsAcc 0 (natDigits n) = some n := by
  have := digitsAcc_natDigitsAux (n + 1) n 0 (by omega)
  simpa [natDigits] using this

theorem natDigitsAux_head :
    ∀ (f n : Nat), n < f → 0 < n →
      ∃ h t, natDigitsAux f n = h :: t ∧ 49 ≤ h ∧ h ≤ 57 := by
  intro f
  induction f with
  | zero => intro n h; omega
  | succ f ih =>
    intro n hf hn
    simp only [natDigitsAux]
    by_cases h10 : n < 10
    · rw [if_pos h10]
      exact ⟨48 + n, [], rfl, by omega, by omega⟩
    · rw [if_neg h10]
      obtain ⟨h, t, heq, hlo, hhi⟩ := ih (n / 10) (by omega) (by omega)
      exact ⟨h, t ++ [48 + n % 10], by rw [heq]; rfl, hlo, hhi⟩

theorem validUtf8_of_ascii : ∀ l : List Nat, (∀ b ∈ l, b ≤ 127) → validUtf8 l = true := by
  intro l
  induction l with
  | nil => intro _; rfl
  | cons b t ih =>
    intro h
    exact validUtf8_ascii_cons b t (h b (by simp)) (ih fun c hc => h c (by simp [hc]))

theorem findIdx_false_append (p : Nat → Bool) :
    ∀ (a : List Nat) (x : Nat) (r : List Nat) (i : Nat),
      (∀ b ∈ a, p b = false) → p x = true →
      List.findIdx? p (a ++ x :: r) i = some (i + a.length) := by
  intro a
  induction a with
  | nil => intro x r i _ hx; simp [List.findIdx?_cons, hx]
  | cons b t ih =>
    intro x r i ha hx
    have hb : p b = false := ha b (by simp)
    simp only [List.cons_append, List.findIdx?_cons, hb, Bool.false_eq_true, if_false]
    rw [ih x r (i + 1) (fun c hc => ha c (by simp [hc])) hx]
    congr 1
    simp only [List.length_cons]
    omega

theorem parseUsize_natDigits (n : Nat) (h : n < 2 ^ 64) :
    parseUsize (natDigits n) = some n := by
  have hd := natDigits_digits n
  have hne := natDigits_ne_nil n
  unfold parseUsize
  cases heq : natDigits n with
  | nil => exact absurd heq hne
  | cons c t =>
    have hc : 48 ≤ c ∧ c ≤ 57 := hd c (by rw [heq]; simp)
    have h43 : (match c :: t with | 43 :: t2 => t2 | _ => c :: t) = c :: t := by
      split
      · next heq2 => rw [List.cons.injEq] at heq2; omega
      · rfl
    simp only [h43]
    rw [← heq, digitsAcc_natDigits n]
    simp only [if_pos h]

theorem parseI64_intDecimal (i : Int) (hlo : -(2 ^ 63) ≤ i) (hhi : i < 2 ^ 63) :
    parseI64 (intDecimal i) = some i := by
  by_cases hneg : i < 0
  · have h0 : 0 < i.natAbs := by omega
    simp only [intDecimal, if_pos hneg]
    cases heq : natDigits i.natAbs with
    | nil => exact absurd heq (natDigits_ne_nil _)
    | cons c t =>
      have hda : digitsAcc 0 (c :: t) = some i.natAbs := by
        rw [← heq]; exact digitsAcc_natDigits _
      simp only [parseI64, hda]
      rw [if_pos (by omega : i.natAbs ≤ 2 ^ 63)]
      congr 1
      omega
  · have hd := natDigits_digits i.toNat
    have hne := natDigits_ne_nil i.toNat
    simp only [intDecimal, if_neg hneg]
    cases heq : natDigits i.toNat with
    | nil => exact absurd heq hne
    | cons c t =>
      have hc : 48 ≤ c ∧ c ≤ 57 := hd c (by rw [heq]; simp)
      have hda : digitsAcc 0 (c :: t) = some i.toNat := by
        rw [← heq]; exact digitsAcc_natDigits _
      unfold parseI64
      split
      · next heq2 => rw [List.cons.injEq] at heq2; omega
      · next heq2 => rw [List.cons.injEq] at heq2; omega
      · simp only [hda]
        rw [if_pos (by omega : i.toNat < 2 ^ 63)]
        congr 1
        omega

theorem decodeStr_encode (s rest : List Nat) (h : s.length < 2 ^ 64) :
    decodeStr (natDigits s.length ++ 58 :: (s ++ rest)) = some (.String s, rest) := by
  have hd := natDigits_digits s.length
  have hfi := findIdx_false_append (fun c => decide (c = 58)) (natDigits s.length) 58
    (s ++ rest) 0
    (fun b hb => by have hb2 := hd b hb; simp only [decide_eq_false_iff_not]; omega)
    (by decide)
  rw [Nat.zero_add] at hfi
  simp only [decodeStr, hfi, List.take_left, List.drop_left]
  rw [if_pos (validUtf8_of_ascii _ (fun b hb => by have hb2 := hd b hb; omega))]
  rw [parseUsize_natDigits s.length h]
  simp only [List.length_cons, List.length_append]
  rw [if_pos (by omega)]
  simp only [List.drop_succ_cons, List.drop_zero, List.drop_one, List.tail_cons,
    List.take_left, List.drop_left]

theorem intDecimal_le57 (i : Int) : ∀ b ∈ intDecimal i, 45 ≤ b ∧ b ≤ 57 := by
  intro b hb
  simp only [intDecimal] at hb
  by_cases hneg : i < 0
  · rw [if_pos hneg] at hb
    rcases List.mem_cons.mp hb with hb | hb
    · omega
    · have := natDigits_digits i.natAbs b hb
      omega
  · rw [if_neg hneg] at hb
    have := natDigits_digits i.toNat b hb
    omega

theorem decodeInt_encode (i : Int) (rest : List Nat) (hlo : -(2 ^ 63) ≤ i)
    (hhi : i < 2 ^ 63) :
    decodeInt (105 :: (intDecimal i ++ 101 :: rest)) = some (.Integer i, rest) := by
  have hd := intDecimal_le57 i
  have hfi := findIdx_false_append (fun c => decide (c = 101)) (intDecimal i) 101 rest 0
    (fun b hb => by have hb2 := hd b hb; simp only [decide_eq_false_iff_not]; omega)
    (by decide)
  rw [Nat.zero_add] at hfi
  have hdrop : (intDecimal i ++ 101 :: rest).drop ((intDecimal i).length + 1) = rest := by
    rw [show intDecimal i ++ 101 :: rest = (intDecimal i ++ [101]) ++ rest from by simp]
    exact List.drop_left' (by simp)
  have hvu : validUtf8 (intDecimal i) = true :=
    validUtf8_of_ascii _ (fun b hb => by have hb2 := hd b hb; omega)
  have hpi : parseI64 (intDecimal i) = some i := parseI64_intDecimal i hlo hhi
  by_cases hneg : i < 0
  · have h0 : 0 < i.natAbs := by omega
    obtain ⟨c, t', heq, hc49, hc57⟩ := natDigitsAux_head (i.natAbs + 1) i.natAbs (by omega) h0
    have heqI : intDecimal i = 45 :: c :: t' := by
      simp only [intDecimal, if_pos hneg, natDigits, heq]
    rw [heqI] at hfi hdrop hvu hpi ⊢
    simp only [decodeInt, List.drop_succ_cons, List.drop_zero, hfi, List.take_left, hdrop]
    rw [if_neg (by simp)]
    rw [if_neg (by simp; omega)]
    rw [if_pos hvu, hpi]
  · by_cases h0 : i = 0
    · have heqI : intDecimal i = [48] := by
        subst h0; rfl
      rw [heqI] at hfi hdrop hvu hpi ⊢
      simp only [decodeInt, List.drop_succ_cons, List.drop_zero, hfi, List.take_left, hdrop]
      rw [if_neg (by simp)]
      rw [if_neg (by simp)]
      rw [if_pos hvu, hpi]
    · have hpos : 0 < i.toNat := by omega
      obtain ⟨c, t', heq, hc49, hc57⟩ := natDigitsAux_head (i.toNat + 1) i.toNat (by omega) hpos
      have heqI : intDecimal i = c :: t' := by
        simp only [intDecimal, if_neg hneg, natDigits, heq]
      rw [heqI] at hfi hdrop hvu hpi ⊢
      simp only [decodeInt, List.drop_succ_cons, List.drop_zero, hfi, List.take_left, hdrop]
      rw [if_neg (by rintro ⟨h1, h2⟩; omega)]
      rw [if_neg (by intro h2; rw [List.cons.injEq] at h2; omega)]
      rw [if_pos hvu, hpi]

theorem encB_head : ∀ v : Bencode, ∃ b t, encB v = b :: t ∧ b ≠ 101 := by
  intro v
  cases v with
  | String s =>
    cases heq : natDigits s.length with
    | nil => exact absurd heq (natDigits_ne_nil _)
    | cons c t' =>
      have hc := natDigits_digits s.length c (by rw [heq]; simp)
      refine ⟨c, t' ++ 58 :: s, ?_, by omega⟩
      simp [encB, encode_value, heq]
  | Integer i => exact ⟨105, intDecimal i ++ [101], rfl, by omega⟩
  | List l => exact ⟨108, (encodeListM l).1 ++ [101], rfl, by omega⟩
  | Dictionary d => exact ⟨100, (encodeDictM d).1 ++ [101], rfl, by omega⟩

theorem encB_length_pos (v : Bencode) : 0 < (encB v).length := by
  obtain ⟨b, t, heq, _⟩ := encB_head v
  rw [heq]
  simp

mutual
theorem decodeF_enc : ∀ (v : Bencode) (rest : List Nat) (f : Nat),
    wfBencode v = true → 2 * (encB v).length ≤ f →
    decodeF f (encB v ++ rest) = some (v, rest)
  | .String s, rest, f => by
    intro hwf hf
    simp only [wfBencode, decide_eq_true_eq] at hwf
    obtain ⟨c, t', heq⟩ : ∃ c t', natDigits s.length = c :: t' := by
      cases hne : natDigits s.length with
      | nil => exact absurd hne (natDigits_ne_nil _)
      | cons c t' => exact ⟨c, t', rfl⟩
    have hc : 48 ≤ c ∧ c ≤ 57 := natDigits_digits s.length c (by rw [heq]; simp)
    have hinput : encB (.String s) ++ rest = c :: (t' ++ 58 :: (s ++ rest)) := by
      simp [encB, encode_value, heq]
    cases f with
    | zero => exact absurd hf (by have := encB_length_pos (.String s); omega)
    | succ f2 =>
      rw [hinput]
      simp only [decodeF]
      rw [if_pos hc]
      rw [show c :: (t' ++ 58 :: (s ++ rest)) = natDigits s.length ++ 58 :: (s ++ rest) by
        rw [heq]; rfl]
      exact decodeStr_encode s rest hwf
  | .Integer i, rest, f => by
    intro hwf hf
    simp only [wfBencode, Bool.and_eq_true, decide_eq_true_eq] at hwf
    have hinput : encB (.Integer i) ++ rest = 105 :: (intDecimal i ++ 101 :: rest) := by
      simp [encB, encode_value]
    cases f with
    | zero => exact absurd hf (by have := encB_length_pos (.Integer i); omega)
    | succ f2 =>
      rw [hinput]
      simp only [decodeF]
      rw [if_neg (by omega), if_pos trivial]
      exact decodeInt_encode i rest hwf.1 hwf.2
  | .List l, rest, f => by
    intro hwf hf
    simp only [wfBencode, Bool.and_eq_true, decide_eq_true_eq] at hwf
    have hinput : encB (.List l) ++ rest = 108 :: ((encodeListM l).1 ++ 101 :: rest) := by
      simp [encB, encode_value]
    have hlen : (encB (.List l)).length = (encodeListM l).1.length + 2 := by
      simp [encB, encode_value]
    cases f with
    | zero => exact absurd hf (by omega)
    | succ f2 =>
      rw [hinput]
      simp only [decodeF]
      rw [if_neg (by omega), if_neg (by omega), if_pos trivial]
      simp only [List.drop_one, List.tail_cons]
      rw [decodeListF_enc l [] rest f2 hwf.2 hwf.1 (by rw [hlen] at hf; omega)]
      simp
  | .Dictionary d, rest, f => by
    intro hwf hf
    simp only [wfBencode, Bool.and_eq_true, decide_eq_true_eq] at hwf
    have hinput : encB (.Dictionary d) ++ rest
        = 100 :: ((encodeDictM d).1 ++ 101 :: rest) := by
      simp [encB, encode_value]
    have hlen : (encB (.Dictionary d)).length = (encodeDictM d).1.length + 2 := by
      simp [encB, encode_value]
    cases f with
    | zero => exact absurd hf (by omega)
    | succ f2 =>
      rw [hinput]
      simp only [decodeF]
      rw [if_neg (by omega), if_neg (by omega), if_neg (by omega), if_pos trivial]
      simp only [List.drop_one, List.tail_cons]
      rw [decodeDictF_enc d [] rest f2 hwf.2 hwf.1.1 hwf.1.2
        (fun p _ q hq => absurd hq (List.not_mem_nil q))
        (by rw [hlen] at hf; omega)]
      simp
theorem decodeListF_enc :
    ∀ (l : List Bencode) (acc : List Bencode) (rest : List Nat) (f : Nat),
      wfBencodeList l = true → l ≠ [] → 2 * (encodeListM l).1.length + 2 ≤ f →
      decodeListF f acc ((encodeListM l).1 ++ 101 :: rest) = some (.List (acc ++ l), rest)
  | [], _, _, _ => by intro _ hne _; exact absurd rfl hne
  | v1 :: t, acc, rest, f => by
    intro hwf _ hf
    simp only [wfBencodeList, Bool.and_eq_true] at hwf
    have henc : (encodeListM (v1 :: t)).1 = encB v1 ++ (encodeListM t).1 := by
      simp [encodeListM, encB]
    have hlen : (encodeListM (v1 :: t)).1.length
        = (encB v1).length + (encodeListM t).1.length := by
      rw [henc]; simp
    have hpos := encB_length_pos v1
    cases f with
    | zero => omega
    | succ f2 =>
      have hin : (encodeListM (v1 :: t)).1 ++ 101 :: rest
          = encB v1 ++ ((encodeListM t).1 ++ 101 :: rest) := by
        rw [henc, List.append_assoc]
      have hd1 : decodeF f2 (encB v1 ++ ((encodeListM t).1 ++ 101 :: rest))
          = some (v1, (encodeListM t).1 ++ 101 :: rest) :=
        decodeF_enc v1 ((encodeListM t).1 ++ 101 :: rest) f2 hwf.1 (by omega)
      rw [hin]
      simp only [decodeListF, hd1]
      cases t with
      | nil =>
        simp only [encodeListM, List.nil_append]
        simp
      | cons w t2 =>
        obtain ⟨b, tb, hencw, hb101⟩ := encB_head w
        have henc2 : (encodeListM (w :: t2)).1 = encB w ++ (encodeListM t2).1 := by
          simp [encodeListM, encB]
        have hX : (encodeListM (w :: t2)).1 ++ 101 :: rest
            = b :: (tb ++ ((encodeListM t2).1 ++ 101 :: rest)) := by
          rw [henc2, hencw]
          simp
        have hrec := decodeListF_enc (w :: t2) (acc ++ [v1]) rest f2 hwf.2 (by simp)
          (by rw [hlen] at hf; omega)
        rw [hX]
        simp only [hb101, ite_false, if_false]
        rw [← hX, hrec]
        simp
theorem decodeDictF_enc :
    ∀ (d acc : List (List Nat × Bencode)) (rest : List Nat) (f : Nat),
      wfBencodeDict d = true → d ≠ [] → nodupB (d.map Prod.fst) = true →
      (∀ p ∈ d, ∀ q ∈ acc, q.1 ≠ p.1) →
      2 * (encodeDictM d).1.length + 2 ≤ f →
      decodeDictF f acc ((encodeDictM d).1 ++ 101 :: rest)
        = some (.Dictionary (acc ++ d), rest)
  | [], _, _, _ => by intro _ hne _ _ _; exact absurd rfl hne
  | (k, v) :: t, acc, rest, f => by
    intro hwf _ hnd hfr hf
    simp only [wfBencodeDict, Bool.and_eq_true, decide_eq_true_eq] at hwf
    simp only [List.map_cons, nodupB, Bool.and_eq_true, Bool.not_eq_true'] at hnd
    have hstr : encB (.String k) = natDigits k.length ++ 58 :: k := by
      simp [encB, encode_value]
    have henc : (encodeDictM ((k, v) :: t)).1
        = encB (.String k) ++ (encB v ++ (encodeDictM t).1) := by
      simp [encodeDictM, encB, encode_value]
    have hlen : (encodeDictM ((k, v) :: t)).1.length
        = (encB (.String k)).length + ((encB v).length + (encodeDictM t).1.length) := by
      rw [henc]; simp
    have hposk := encB_length_pos (.String k)
    have hposv := encB_length_pos v
    cases f with
    | zero => omega
    | succ f2 =>
      have hin : (encodeDictM ((k, v) :: t)).1 ++ 101 :: rest
          = encB (.String k) ++ (encB v ++ ((encodeDictM t).1 ++ 101 :: rest)) := by
        rw [henc]
        simp [List.append_assoc]
      have hd1 : decodeF f2
            (encB (.String k) ++ (encB v ++ ((encodeDictM t).1 ++ 101 :: rest)))
          = some (.String k, encB v ++ ((encodeDictM t).1 ++ 101 :: rest)) :=
        decodeF_enc (.String k) (encB v ++ ((encodeDictM t).1 ++ 101 :: rest)) f2
          (by simp only [wfBencode, decide_eq_true_eq]; exact hwf.1.1.2) (by omega)
      have hd2 : decodeF f2 (encB v ++ ((encodeDictM t).1 ++ 101 :: rest))
          = some (v, (encodeDictM t).1 ++ 101 :: rest) :=
        decodeF_enc v ((encodeDictM t).1 ++ 101 :: rest) f2 hwf.1.2 (by omega)
      have hace : idxInsert acc k v = acc ++ [(k, v)] :=
        idxInsert_append acc k v (fun q hq => hfr (k, v) (by simp) q hq)
      rw [hin]
      simp only [decodeDictF, hd1, hd2]
      rw [if_pos hwf.1.1.1]
      cases t with
      | nil =>
        simp only [encodeDictM, List.nil_append]
        rw [hace]
        simp
      | cons p2 t2 =>
        obtain ⟨k2, v2⟩ := p2
        obtain ⟨c2, t2', heq2⟩ : ∃ c2 t2', natDigits k2.length = c2 :: t2' := by
          cases hne2 : natDigits k2.length with
          | nil => exact absurd hne2 (natDigits_ne_nil _)
          | cons c2 t2' => exact ⟨c2, t2', rfl⟩
        have hc2 : 48 ≤ c2 ∧ c2 ≤ 57 := natDigits_digits k2.length c2 (by rw [heq2]; simp)
        have hc2ne : ¬(c2 = 101) := by omega
        have henc3 : (encodeDictM ((k2, v2) :: t2)).1
            = encB (.String k2) ++ (encB v2 ++ (encodeDictM t2).1) := by
          simp [encodeDictM, encB, encode_value]
        have hstr2 : encB (.String k2) = c2 :: (t2' ++ 58 :: k2) := by
          simp [encB, encode_value, heq2]
        have hX : (encodeDictM ((k2, v2) :: t2)).1 ++ 101 :: rest
            = c2 :: ((t2' ++ 58 :: k2)
                ++ (encB v2 ++ ((encodeDictM t2).1 ++ 101 :: rest))) := by
          rw [henc3, hstr2]
          simp
        have hrec := decodeDictF_enc ((k2, v2) :: t2) (acc ++ [(k, v)]) rest f2 hwf.2
          (by simp) hnd.2
          (by
            intro p hp q hq
            rcases List.mem_append.mp hq with hq | hq
            · exact hfr p (List.mem_cons_of_mem _ hp) q hq
            · have hqe : q = (k, v) := by simpa using hq
              subst hqe
              intro hkp
              have hkp2 : k = p.1 := hkp
              have hmem : memB k (((k2, v2) :: t2).map Prod.fst) = true := by
                rw [memB_eq_true_iff, hkp2]
                exact List.mem_map_of_mem Prod.fst hp
              rw [hnd.1] at hmem
              exact Bool.false_ne_true hmem)
          (by rw [hlen] at hf; omega)
        rw [hX]
        simp only [hc2ne, ite_false, if_false]
        rw [← hX, hace, hrec]
        simp
end

/-- Positive side of the round-trip analysis: on every well-formed value (in
particular one whose lists and dictionaries are all nonempty), decoding the
bytes of encode_value returns exactly that value with an empty remainder. -/
theorem decode_value_encode_roundtrip (v : Bencode) (hwf : wfBencode v = true) :
    decode_value (encB v) = some (v, []) := by
  have h := decodeF_enc v [] (2 * (encB v).length + 2) hwf (by omega)
  rw [List.append_nil] at h
  simpa [decode_value] using h
